import Mathlib

/-!
Datadog::CI::Cov — a shallow embedding of `ext/datadog_cov/datadog_cov.c`

The extension is a line-coverage collector for the Ruby VM.  This development
embeds the C functions of the extension as Lean functions and proves the
properties the specification states about them.

Conventions of the embedding:

* a C string (`const char *`) is the list of the bytes it points to; the
  terminating NUL is implicit, so reading past the end of the list reads `0`,
  and a `0` inside the list terminates the string early, as it does in C;
* a `char` is a natural number (no arithmetic on characters can overflow here:
  the only arithmetic is the difference `strncmp` returns, which is an `int`);
* a Ruby `VALUE` is a term of the inductive type `VALUE`; a Ruby `Hash` is an
  insertion-ordered association list, as Ruby hashes are;
* raising a Ruby exception is `Except.error`; undefined behaviour of the C code
  (dereferencing `NULL`, handing a non-Array to `rb_ary_includes`) is `none`.
-/

namespace DatadogCov

/-! ## C strings -/

/-- A C string: the bytes a `char *` points to, the terminating NUL left implicit. -/
abbrev CStr := List Nat

/-- The libc function `strlen`: the number of bytes before the first NUL. -/
def strlen : CStr → Nat
  | [] => 0
  | c :: cs => if c = 0 then 0 else strlen cs + 1

/-- The libc function `strncmp`: compares at most `n` characters, stopping at the
first difference or at a NUL; the result is the difference of the two characters at
the first difference, and `0` when there is none. -/
def strncmp : CStr → CStr → Nat → Int
  | _, _, 0 => 0
  | s1, s2, n + 1 =>
    let c1 := s1.headD 0
    let c2 := s2.headD 0
    if c1 ≠ c2 then (c1 : Int) - (c2 : Int)
    else if c1 = 0 then 0
    else strncmp s1.tail s2.tail n

/-- The function `prefix` of datadog_cov.c, lines 5-8:
`return strncmp(pre, str, strlen(pre));`. -/
def prefix_ (pre str : CStr) : Int :=
  strncmp pre str (strlen pre)

/-- The bytes of an ASCII string literal, for writing paths legibly. -/
def bytes (s : String) : CStr :=
  s.toList.map Char.toNat

/-! ## Ruby values -/

/-- The Ruby values the extension handles: the special constants, symbols, Fixnums,
Strings (their bytes) and Arrays of Fixnums (the only arrays the extension creates). -/
inductive VALUE where
  | Qnil
  | Qfalse
  | Qtrue
  | sym (name : String)
  | fixnum (i : Int)
  | str (s : List Nat)
  | ary (elems : List Int)
  deriving DecidableEq, Repr

/-- A Ruby Hash: an insertion-ordered association list; a well-formed one has
pairwise distinct keys. -/
abbrev RbHash := List (VALUE × VALUE)

/-- The exceptions the constructor can raise. -/
inductive RbException where
  | rb_eArgError (msg : String)
  | rb_eTypeError (msg : String)
  deriving DecidableEq, Repr

/-- The macro `RTEST`: every value but `nil` and `false` is truthy. -/
def RTEST : VALUE → Bool
  | .Qnil => false
  | .Qfalse => false
  | _ => true

/-- The function `rb_hash_new`: a new empty Hash (whose default value is `nil`). -/
def rb_hash_new : RbHash := []

/-- The function `rb_hash_lookup`: the value stored under `key`, `Qnil` when there is none. -/
def rb_hash_lookup : RbHash → VALUE → VALUE
  | [], _ => .Qnil
  | (k, v) :: rest, key => if k = key then v else rb_hash_lookup rest key

/-- The function `rb_hash_aref` on a Hash made by `rb_hash_new`, whose default is `nil`:
the value stored under `key`, `Qnil` when there is none. -/
def rb_hash_aref (hash : RbHash) (key : VALUE) : VALUE :=
  rb_hash_lookup hash key

/-- The function `rb_hash_aset`: stores `val` under `key`, in place when the key is
already there (the entry keeps its position), as a new last entry otherwise. -/
def rb_hash_aset : RbHash → VALUE → VALUE → RbHash
  | [], key, val => [(key, val)]
  | (k, v) :: rest, key, val =>
    if k = key then (k, val) :: rest else (k, v) :: rb_hash_aset rest key val

/-- The function `rb_str_new2`: a new Ruby String holding the bytes of a C string, that
is the bytes before its first NUL. -/
def rb_str_new2 (ptr : CStr) : VALUE :=
  .str (ptr.takeWhile (fun c => c != 0))

/-- The function `rb_ary_includes` on the elements of an Array of Fixnums. -/
def rb_ary_includes (elems : List Int) (item : Int) : Bool :=
  elems.contains item

/-- The function `rb_ary_push` on the elements of an Array of Fixnums. -/
def rb_ary_push (elems : List Int) (item : Int) : List Int :=
  elems ++ [item]

/-- The macro `StringValueCStr`: the C string of a Ruby String; raises `TypeError`
when the value is not a String and `ArgumentError` when the String holds a NUL byte. -/
def StringValueCStr : VALUE → Except RbException CStr
  | .str s =>
    if 0 ∈ s then .error (.rb_eArgError "string contains null byte") else .ok s
  | _ => .error (.rb_eTypeError "no implicit conversion into String")

/-- The function `rb_scan_args` with the format "10": exactly one mandatory argument,
`ArgumentError` otherwise.  The argument is the options Hash. -/
def rb_scan_args (argv : List RbHash) : Except RbException RbHash :=
  match argv with
  | [opt] => .ok opt
  | _ => .error (.rb_eArgError "wrong number of arguments")

/-! ## The collector -/

/-- The constant `DD_COV_TARGET_FILES` (line 11). -/
def DD_COV_TARGET_FILES : Int := 1

/-- The constant `DD_COV_TARGET_LINES` (line 12). -/
def DD_COV_TARGET_LINES : Int := 2

/-- The struct `dd_cov_data` (lines 15-20); `root = none` is the `NULL` pointer.  The
root is the byte content the pointer had when it was stored: the embedding assumes the
Ruby String it points into is neither mutated nor collected afterwards. -/
structure dd_cov_data where
  root : Option CStr
  mode : Int
  coverage : RbHash
  deriving DecidableEq, Repr

/-- The function `dd_cov_allocate` (lines 50-56): `TypedData_Make_Struct` zeroes the
struct, then `coverage` is a new Hash. -/
def dd_cov_allocate : dd_cov_data :=
  { root := none, mode := 0, coverage := rb_hash_new }

/-- The function `dd_cov_initialize` (lines 59-92).  Returns what the call returns or
raises, together with the struct as the call leaves it. -/
def dd_cov_initialize (argv : List RbHash) (self : dd_cov_data) :
    Except RbException VALUE × dd_cov_data :=
  match rb_scan_args argv with
  | .error e => (.error e, self)
  | .ok opt =>
    let rb_root := rb_hash_lookup opt (.sym "root")
    if !RTEST rb_root then
      (.error (.rb_eArgError "root is required"), self)
    else
      let rb_mode := rb_hash_lookup opt (.sym "mode")
      let mode : Option Int :=
        if !RTEST rb_mode || rb_mode = .sym "files" then some DD_COV_TARGET_FILES
        else if rb_mode = .sym "lines" then some DD_COV_TARGET_LINES
        else none
      match mode with
      | none => (.error (.rb_eArgError "mode is invalid"), self)
      | some mode =>
        match StringValueCStr rb_root with
        | .error e => (.error e, self)
        | .ok root => (.ok .Qnil, { self with root := some root, mode := mode })

/-- Ruby's `Class#new` for `Datadog::CI::Cov` as `Init_datadog_cov` sets it up
(lines 169-171): the allocator, then `initialize`; the object is returned only when
`initialize` does not raise. -/
def Cov_new (argv : List RbHash) : Except RbException dd_cov_data :=
  match dd_cov_initialize argv dd_cov_allocate with
  | (.ok _, self) => .ok self
  | (.error e, _) => .error e

/-- The function `dd_cov_update_line_coverage` (lines 94-133).  `sourcefile` is what
`rb_sourcefile()` returns (`none` for `0`) and `sourceline` what `rb_sourceline()`
returns.  The result is `none` where the C code has undefined behaviour: `strlen` of a
`NULL` root, or `rb_ary_includes` on a value that is not an Array. -/
def dd_cov_update_line_coverage (data : dd_cov_data) (sourcefile : Option CStr)
    (sourceline : Int) : Option dd_cov_data :=
  match sourcefile with
  | none => some data
  | some filename =>
    match data.root with
    | none => none
    | some root =>
      if prefix_ root filename ≠ 0 then some data
      else
        let rb_str_source_file := rb_str_new2 filename
        if data.mode = DD_COV_TARGET_FILES then
          some { data with coverage := rb_hash_aset data.coverage rb_str_source_file .Qtrue }
        else if data.mode = DD_COV_TARGET_LINES then
          let found := rb_hash_aref data.coverage rb_str_source_file
          let coverage :=
            if found = .Qnil then rb_hash_aset data.coverage rb_str_source_file (.ary [])
            else data.coverage
          let rb_lines := if found = .Qnil then .ary [] else found
          match rb_lines with
          | .ary elems =>
            if rb_ary_includes elems sourceline = false then
              some { data with
                coverage := rb_hash_aset coverage rb_str_source_file
                  (.ary (rb_ary_push elems sourceline)) }
            else some { data with coverage := coverage }
          | _ => none
        else some data

/-- A collector object together with the number of times its hook is registered on
the current thread: `rb_thread_add_event_hook` adds one registration per call. -/
structure World where
  data : dd_cov_data
  hooks : Nat
  deriving DecidableEq, Repr

/-- The function `dd_cov_start` (lines 135-144): registers the hook once more and
returns `self`. -/
def dd_cov_start (w : World) : World :=
  { w with hooks := w.hooks + 1 }

/-- The function `dd_cov_stop` (lines 146-161): `rb_thread_remove_event_hook` removes
every registration of the hook from the current thread; the Hash held so far is
returned and a new empty one takes its place. -/
def dd_cov_stop (w : World) : RbHash × World :=
  let cov := w.data.coverage
  (cov, { data := { w.data with coverage := rb_hash_new }, hooks := 0 })

/-- Runs the hook `n` times in a row on one line event, stopping at a fault. -/
def call_hooks : Nat → dd_cov_data → Option CStr → Int → Option dd_cov_data
  | 0, data, _, _ => some data
  | n + 1, data, sourcefile, sourceline =>
    match dd_cov_update_line_coverage data sourcefile sourceline with
    | none => none
    | some data1 => call_hooks n data1 sourcefile sourceline

/-- A line event of the host tracer on the current thread: every registration of the
hook is called with the same source file and line. -/
def line_event (w : World) (sourcefile : Option CStr) (sourceline : Int) : Option World :=
  match call_hooks w.hooks w.data sourcefile sourceline with
  | none => none
  | some data1 => some { w with data := data1 }

/-- What can happen to a collector: `start`, a line executed on the thread, `stop`. -/
inductive Op where
  | start
  | line (sourcefile : Option CStr) (sourceline : Int)
  | stop
  deriving DecidableEq, Repr

/-- One operation: the world after it and the snapshots it returned (one for `stop`,
none otherwise); `none` at a fault. -/
def step (w : World) : Op → Option (World × List RbHash)
  | .start => some (dd_cov_start w, [])
  | .line sourcefile sourceline =>
    match line_event w sourcefile sourceline with
    | none => none
    | some w1 => some (w1, [])
  | .stop => some ((dd_cov_stop w).2, [(dd_cov_stop w).1])

/-- A sequence of operations: the final world and the snapshots returned, in order. -/
def run : World → List Op → Option (World × List RbHash)
  | w, [] => some (w, [])
  | w, op :: ops =>
    match step w op with
    | none => none
    | some (w1, out) =>
      match run w1 ops with
      | none => none
      | some (w2, outs) => some (w2, out ++ outs)

/-- One measurement session: `start`, the line events, `stop`. -/
def session (events : List (Option CStr × Int)) : List Op :=
  Op.start :: (events.map (fun e => Op.line e.1 e.2) ++ [Op.stop])

/-- The keys of a Hash, in order. -/
def keys (hash : RbHash) : List VALUE :=
  hash.map Prod.fst

/-- The line numbers stored under `key`: the elements of the Array found there, and
nothing when the value there is not an Array. -/
def lines_of (hash : RbHash) (key : VALUE) : List Int :=
  match rb_hash_aref hash key with
  | .ary elems => elems
  | _ => []

/-- Adding a line number to a line list the way the hook does (lines 128-131): nothing
when it is there already, at the end otherwise. -/
def insert_line (elems : List Int) (item : Int) : List Int :=
  if item ∈ elems then elems else elems ++ [item]

/-- The store after the hook has recorded an in-scope event: the file marked `true` in
Files mode, the line added to the file's list in Lines mode. -/
def recorded (mode : Int) (cov : RbHash) (key : VALUE) (item : Int) : RbHash :=
  if mode = DD_COV_TARGET_FILES then rb_hash_aset cov key .Qtrue
  else rb_hash_aset cov key (.ary (insert_line (lines_of cov key) item))

/-- The well-formedness of a coverage store for a root and a mode: distinct keys, every
key a String that begins with the root, every value `true` in Files mode and a
non-empty duplicate-free Array in Lines mode. -/
structure StoreInv (root : CStr) (mode : Int) (cov : RbHash) : Prop where
  nodup : (keys cov).Nodup
  in_scope : ∀ kv ∈ cov, ∃ b, kv.1 = VALUE.str b ∧ root <+: b
  files : mode = DD_COV_TARGET_FILES → ∀ kv ∈ cov, kv.2 = VALUE.Qtrue
  lines : mode = DD_COV_TARGET_LINES →
    ∀ kv ∈ cov, ∃ ls, kv.2 = VALUE.ary ls ∧ ls ≠ [] ∧ ls.Nodup

/-- The well-formedness of a collector: a NUL-free root, one of the two modes, and a
well-formed store. -/
structure DataInv (root : CStr) (mode : Int) (data : dd_cov_data) : Prop where
  root_eq : data.root = some root
  mode_eq : data.mode = mode
  nul_free : 0 ∉ root
  mode_ok : mode = DD_COV_TARGET_FILES ∨ mode = DD_COV_TARGET_LINES
  store : StoreInv root mode data.coverage

/-- Every line number stored in a coverage store satisfies `P`. -/
def LinesAll (P : Int → Prop) (cov : RbHash) : Prop :=
  ∀ kv ∈ cov, ∀ ls, kv.2 = VALUE.ary ls → ∀ l ∈ ls, P l

/-- A list with every repeated occurrence after the first removed: the first
occurrences, in their order. -/
def first_seen : List Int → List Int
  | [] => []
  | x :: xs => x :: (first_seen xs).filter (fun y => y != x)

/-- The line numbers, in order, of the events whose file is resolvable, begins with
`root` and is the file `key`. -/
def event_lines (root : CStr) (key : VALUE) (events : List (Option CStr × Int)) : List Int :=
  events.filterMap (fun e =>
    match e.1 with
    | some f => if root <+: f ∧ rb_str_new2 f = key then some e.2 else none
    | none => none)

end DatadogCov

namespace DatadogCov
open VALUE

/-! ## C strings: the scope test -/

theorem strlen_eq_length (s : CStr) (h : 0 ∉ s) : strlen s = s.length := by
  induction s with
  | nil => rfl
  | cons c cs ih =>
    have hc : c ≠ 0 := fun e => h (by simp [e])
    have hcs : 0 ∉ cs := fun e => h (by simp [e])
    simp [strlen, hc, ih hcs]

theorem strncmp_eq_zero_iff (pre : CStr) (h : 0 ∉ pre) (str : CStr) :
    strncmp pre str pre.length = 0 ↔ pre <+: str := by
  induction pre generalizing str with
  | nil => simp [strncmp]
  | cons c cs ih =>
    have hc : c ≠ 0 := fun e => h (by simp [e])
    have hcs : 0 ∉ cs := fun e => h (by simp [e])
    cases str with
    | nil =>
      simp only [List.length_cons, strncmp, List.headD_cons, List.headD_nil]
      simp [hc]
    | cons d ds =>
      simp only [List.length_cons, strncmp, List.headD_cons, List.tail_cons]
      by_cases hcd : c = d
      · subst hcd
        simp [hc, ih hcs ds, List.cons_prefix_cons]
      · have hne : (c : Int) - (d : Int) ≠ 0 := by omega
        simp [hcd, hne, List.cons_prefix_cons]

theorem prefix_eq_zero_iff (root : CStr) (h : 0 ∉ root) (filename : CStr) :
    prefix_ root filename = 0 ↔ root <+: filename := by
  unfold prefix_
  rw [strlen_eq_length root h]
  exact strncmp_eq_zero_iff root h filename

theorem prefix_takeWhile_iff (root : CStr) (h : 0 ∉ root) (filename : CStr) :
    root <+: filename ↔ root <+: filename.takeWhile (fun c => c != 0) := by
  induction root generalizing filename with
  | nil => simp
  | cons c cs ih =>
    have hc : c ≠ 0 := fun e => h (by simp [e])
    have hcs : 0 ∉ cs := fun e => h (by simp [e])
    cases filename with
    | nil => simp
    | cons d ds =>
      by_cases hd : d = 0
      · subst hd
        simp [List.takeWhile, List.cons_prefix_cons, hc]
      · have : (d != 0) = true := by simpa using hd
        simp [List.takeWhile, this, List.cons_prefix_cons, ih hcs ds]

/-- C1.  For a NUL-free root and any filename, the scope test `prefix(root, filename)`
returns 0 exactly when root is a literal byte-prefix of filename; a filename shorter
than root is never in scope; and root "/a/b" puts both "/a/b" and "/a/bc" in scope. -/
theorem prefix_zero_iff_byte_prefix (root filename : CStr) (hroot : 0 ∉ root) :
    (prefix_ root filename = 0 ↔ root <+: filename)
    ∧ (filename.length < root.length → prefix_ root filename ≠ 0)
    ∧ prefix_ (bytes "/a/b") (bytes "/a/b") = 0
    ∧ prefix_ (bytes "/a/b") (bytes "/a/bc") = 0 := by
  refine ⟨prefix_eq_zero_iff root hroot filename, ?_, by decide, by decide⟩
  intro hlen hzero
  have hp := (prefix_eq_zero_iff root hroot filename).1 hzero
  have := hp.length_le
  omega

theorem prefix_zero_iff_byte_prefix_witness :
    0 ∉ bytes "/proj" ∧
    ((prefix_ (bytes "/proj") (bytes "/pro") = 0 ↔ bytes "/proj" <+: bytes "/pro")
    ∧ ((bytes "/pro").length < (bytes "/proj").length →
        prefix_ (bytes "/proj") (bytes "/pro") ≠ 0)
    ∧ prefix_ (bytes "/a/b") (bytes "/a/b") = 0
    ∧ prefix_ (bytes "/a/b") (bytes "/a/bc") = 0) :=
  ⟨by decide, prefix_zero_iff_byte_prefix (bytes "/proj") (bytes "/pro") (by decide)⟩

/-! ## Hashes -/

theorem mem_rb_hash_aset {h : RbHash} {k v : VALUE} {kv : VALUE × VALUE}
    (hm : kv ∈ rb_hash_aset h k v) : kv ∈ h ∨ kv = (k, v) := by
  induction h with
  | nil => simpa [rb_hash_aset] using hm
  | cons e rest ih =>
    obtain ⟨k1, v1⟩ := e
    by_cases hk : k1 = k
    · subst hk
      simp only [rb_hash_aset, if_true, List.mem_cons] at hm
      rcases hm with hm | hm
      · exact Or.inr hm
      · exact Or.inl (List.mem_cons_of_mem _ hm)
    · simp only [rb_hash_aset, hk, if_false, List.mem_cons] at hm
      rcases hm with hm | hm
      · exact Or.inl (by simp [hm])
      · rcases ih hm with h1 | h1
        · exact Or.inl (List.mem_cons_of_mem _ h1)
        · exact Or.inr h1

theorem mem_keys_rb_hash_aset (h : RbHash) (k v x : VALUE) :
    x ∈ keys (rb_hash_aset h k v) ↔ x ∈ keys h ∨ x = k := by
  induction h with
  | nil => simp [rb_hash_aset, keys]
  | cons e rest ih =>
    obtain ⟨k1, v1⟩ := e
    by_cases hk : k1 = k
    · subst hk
      simp only [rb_hash_aset, if_true, keys, List.map_cons, List.mem_cons]
      tauto
    · simp only [rb_hash_aset, hk, if_false, keys, List.map_cons, List.mem_cons]
      simp only [keys] at ih
      rw [ih]
      tauto

theorem nodup_keys_rb_hash_aset (h : RbHash) (k v : VALUE) (hn : (keys h).Nodup) :
    (keys (rb_hash_aset h k v)).Nodup := by
  induction h with
  | nil => simp [rb_hash_aset, keys]
  | cons e rest ih =>
    obtain ⟨k1, v1⟩ := e
    simp only [keys, List.map_cons, List.nodup_cons] at hn
    by_cases hk : k1 = k
    · subst hk
      simpa [rb_hash_aset, keys] using hn
    · simp only [rb_hash_aset, hk, if_false, keys, List.map_cons, List.nodup_cons]
      refine ⟨?_, ih hn.2⟩
      intro hx
      have := (mem_keys_rb_hash_aset rest k v k1).1 hx
      rcases this with h1 | h1
      · exact hn.1 h1
      · exact hk h1

theorem rb_hash_aref_aset_same (h : RbHash) (k v : VALUE) :
    rb_hash_aref (rb_hash_aset h k v) k = v := by
  induction h with
  | nil => simp [rb_hash_aset, rb_hash_aref, rb_hash_lookup]
  | cons e rest ih =>
    obtain ⟨k1, v1⟩ := e
    by_cases hk : k1 = k
    · simp [rb_hash_aset, rb_hash_aref, rb_hash_lookup, hk]
    · simp only [rb_hash_aref] at ih
      simp [rb_hash_aset, rb_hash_aref, rb_hash_lookup, hk, ih]

theorem rb_hash_aref_aset_other (h : RbHash) (k v x : VALUE) (hx : x ≠ k) :
    rb_hash_aref (rb_hash_aset h k v) x = rb_hash_aref h x := by
  induction h with
  | nil =>
    have : ¬ k = x := fun e => hx e.symm
    simp [rb_hash_aset, rb_hash_aref, rb_hash_lookup, this]
  | cons e rest ih =>
    obtain ⟨k1, v1⟩ := e
    simp only [rb_hash_aref] at ih
    by_cases hk : k1 = k
    · subst hk
      have : ¬ k1 = x := fun e => hx e.symm
      simp [rb_hash_aset, rb_hash_aref, rb_hash_lookup, this]
    · by_cases hk1 : k1 = x
      · subst hk1
        simp [rb_hash_aset, rb_hash_aref, rb_hash_lookup, hx]
      · simp [rb_hash_aset, rb_hash_aref, rb_hash_lookup, hk, hk1, ih]

theorem rb_hash_aset_aset (h : RbHash) (k a b : VALUE) :
    rb_hash_aset (rb_hash_aset h k a) k b = rb_hash_aset h k b := by
  induction h with
  | nil => simp [rb_hash_aset]
  | cons e rest ih =>
    obtain ⟨k1, v1⟩ := e
    by_cases hk : k1 = k
    · simp [rb_hash_aset, hk]
    · simp [rb_hash_aset, hk, ih]

theorem rb_hash_aref_mem (h : RbHash) (k : VALUE) (hk : k ∈ keys h) :
    (k, rb_hash_aref h k) ∈ h := by
  induction h with
  | nil => simp [keys] at hk
  | cons e rest ih =>
    obtain ⟨k1, v1⟩ := e
    simp only [rb_hash_aref] at ih
    by_cases h1 : k1 = k
    · subst h1
      simp [rb_hash_aref, rb_hash_lookup]
    · have hk2 : k ∈ keys rest := by
        simp only [keys, List.map_cons, List.mem_cons] at hk
        rcases hk with hk | hk
        · exact absurd hk.symm h1
        · exact hk
      simp only [rb_hash_aref, rb_hash_lookup, h1, if_false]
      exact List.mem_cons_of_mem _ (ih hk2)

theorem rb_hash_aref_not_mem (h : RbHash) (k : VALUE) (hk : k ∉ keys h) :
    rb_hash_aref h k = Qnil := by
  induction h with
  | nil => rfl
  | cons e rest ih =>
    obtain ⟨k1, v1⟩ := e
    simp only [rb_hash_aref] at ih
    simp only [keys, List.map_cons, List.mem_cons, not_or] at hk
    have h1 : ¬ k1 = k := fun e => hk.1 e.symm
    simp only [rb_hash_aref, rb_hash_lookup, h1, if_false]
    exact ih hk.2

theorem rb_hash_aset_aref_self (h : RbHash) (k : VALUE) (hk : k ∈ keys h) :
    rb_hash_aset h k (rb_hash_aref h k) = h := by
  induction h with
  | nil => simp [keys] at hk
  | cons e rest ih =>
    obtain ⟨k1, v1⟩ := e
    simp only [rb_hash_aref] at ih
    by_cases h1 : k1 = k
    · subst h1
      simp [rb_hash_aset, rb_hash_aref, rb_hash_lookup]
    · have hk2 : k ∈ keys rest := by
        simp only [keys, List.map_cons, List.mem_cons] at hk
        rcases hk with hk | hk
        · exact absurd hk.symm h1
        · exact hk
      simp [rb_hash_aset, rb_hash_aref, rb_hash_lookup, h1, ih hk2]

theorem mem_keys_of_mem {h : RbHash} {kv : VALUE × VALUE} (hm : kv ∈ h) : kv.1 ∈ keys h :=
  List.mem_map_of_mem Prod.fst hm

theorem rb_hash_aref_of_mem {h : RbHash} {k v : VALUE} (hn : (keys h).Nodup)
    (hm : (k, v) ∈ h) : rb_hash_aref h k = v := by
  induction h with
  | nil => simp at hm
  | cons e rest ih =>
    obtain ⟨k1, v1⟩ := e
    simp only [rb_hash_aref] at ih
    simp only [keys, List.map_cons, List.nodup_cons] at hn
    simp only [List.mem_cons, Prod.mk.injEq] at hm
    rcases hm with ⟨hk, hv⟩ | hm
    · simp [rb_hash_aref, rb_hash_lookup, hk, hv]
    · have hne : ¬ k1 = k := by
        intro e
        subst e
        exact hn.1 (mem_keys_of_mem hm)
      simp only [rb_hash_aref, rb_hash_lookup, hne, if_false]
      exact ih hn.2 hm

/-! ## The hook -/

theorem insert_line_mem (elems : List Int) (item x : Int) :
    x ∈ insert_line elems item ↔ x ∈ elems ∨ x = item := by
  unfold insert_line
  by_cases h : item ∈ elems
  · simp only [h, if_true]
    constructor
    · exact Or.inl
    · rintro (h1 | h1)
      · exact h1
      · exact h1 ▸ h
  · simp [h]

theorem insert_line_ne_nil (elems : List Int) (item : Int) : insert_line elems item ≠ [] := by
  intro h
  have : item ∈ insert_line elems item := (insert_line_mem elems item item).2 (Or.inr rfl)
  simp [h] at this

theorem insert_line_nodup (elems : List Int) (item : Int) (hn : elems.Nodup) :
    (insert_line elems item).Nodup := by
  unfold insert_line
  by_cases h : item ∈ elems
  · simpa [h] using hn
  · simp only [h, if_false]
    rw [List.nodup_append]
    refine ⟨hn, List.nodup_singleton item, ?_⟩
    intro a ha hb
    simp only [List.mem_singleton] at hb
    exact h (hb ▸ ha)

theorem insert_line_idem (elems : List Int) (item : Int) :
    insert_line (insert_line elems item) item = insert_line elems item := by
  have : item ∈ insert_line elems item := (insert_line_mem elems item item).2 (Or.inr rfl)
  generalize insert_line elems item = ys at this
  simp [insert_line, this]

theorem lines_of_aset_same (cov : RbHash) (key : VALUE) (elems : List Int) :
    lines_of (rb_hash_aset cov key (ary elems)) key = elems := by
  simp [lines_of, rb_hash_aref_aset_same]

theorem lines_of_aset_other (cov : RbHash) (key v x : VALUE) (hx : x ≠ key) :
    lines_of (rb_hash_aset cov key v) x = lines_of cov x := by
  simp [lines_of, rb_hash_aref_aset_other cov key v x hx]

theorem recorded_idem (mode : Int) (cov : RbHash) (key : VALUE) (item : Int) :
    recorded mode (recorded mode cov key item) key item = recorded mode cov key item := by
  unfold recorded
  by_cases hm : mode = DD_COV_TARGET_FILES
  · simp [hm, rb_hash_aset_aset]
  · simp [hm, rb_hash_aset_aset, lines_of_aset_same, insert_line_idem]

theorem mem_keys_recorded (mode : Int) (cov : RbHash) (key : VALUE) (item : Int) (x : VALUE) :
    x ∈ keys (recorded mode cov key item) ↔ x ∈ keys cov ∨ x = key := by
  unfold recorded
  by_cases hm : mode = DD_COV_TARGET_FILES
  · simp [hm, mem_keys_rb_hash_aset]
  · simp [hm, mem_keys_rb_hash_aset]

theorem lines_of_nodup {root : CStr} {cov : RbHash}
    (hinv : StoreInv root DD_COV_TARGET_LINES cov) (key : VALUE) :
    (lines_of cov key).Nodup := by
  by_cases hk : key ∈ keys cov
  · obtain ⟨ls, hls, _, hnd⟩ := hinv.lines rfl _ (rb_hash_aref_mem cov key hk)
    simp only at hls
    simpa [lines_of, hls] using hnd
  · simp [lines_of, rb_hash_aref_not_mem cov key hk]

theorem recorded_inv {root : CStr} {mode : Int} {cov : RbHash}
    (hmode : mode = DD_COV_TARGET_FILES ∨ mode = DD_COV_TARGET_LINES)
    (hinv : StoreInv root mode cov) (b : List Nat) (hb : root <+: b) (item : Int) :
    StoreInv root mode (recorded mode cov (str b) item) := by
  rcases hmode with hm | hm
  · subst hm
    have hrec : recorded DD_COV_TARGET_FILES cov (str b) item
        = rb_hash_aset cov (str b) Qtrue := by simp [recorded]
    rw [hrec]
    refine ⟨nodup_keys_rb_hash_aset _ _ _ hinv.nodup, ?_, ?_, ?_⟩
    · intro kv hkv
      rcases mem_rb_hash_aset hkv with h1 | h1
      · exact hinv.in_scope kv h1
      · exact ⟨b, by simp [h1], hb⟩
    · intro _ kv hkv
      rcases mem_rb_hash_aset hkv with h1 | h1
      · exact hinv.files rfl kv h1
      · simp [h1]
    · intro h
      exact absurd h (by decide)
  · subst hm
    have hrec : recorded DD_COV_TARGET_LINES cov (str b) item
        = rb_hash_aset cov (str b) (ary (insert_line (lines_of cov (str b)) item)) := by
      simp [recorded, DD_COV_TARGET_LINES, DD_COV_TARGET_FILES]
    rw [hrec]
    refine ⟨nodup_keys_rb_hash_aset _ _ _ hinv.nodup, ?_, ?_, ?_⟩
    · intro kv hkv
      rcases mem_rb_hash_aset hkv with h1 | h1
      · exact hinv.in_scope kv h1
      · exact ⟨b, by simp [h1], hb⟩
    · intro h
      exact absurd h (by decide)
    · intro _ kv hkv
      rcases mem_rb_hash_aset hkv with h1 | h1
      · exact hinv.lines rfl kv h1
      · exact ⟨insert_line (lines_of cov (str b)) item, by simp [h1], insert_line_ne_nil _ _,
          insert_line_nodup _ _ (lines_of_nodup hinv _)⟩

theorem hook_out_of_scope (data : dd_cov_data) (root filename : CStr) (line : Int)
    (hr : data.root = some root) (hp : prefix_ root filename ≠ 0) :
    dd_cov_update_line_coverage data (some filename) line = some data := by
  simp [dd_cov_update_line_coverage, hr, hp]

theorem hook_files (data : dd_cov_data) (root filename : CStr) (line : Int)
    (hr : data.root = some root) (hm : data.mode = DD_COV_TARGET_FILES)
    (hp : prefix_ root filename = 0) :
    dd_cov_update_line_coverage data (some filename) line
      = some { data with
          coverage := rb_hash_aset data.coverage (rb_str_new2 filename) Qtrue } := by
  simp [dd_cov_update_line_coverage, hr, hm, hp]

theorem hook_lines (data : dd_cov_data) (root filename : CStr) (line : Int)
    (hr : data.root = some root) (hm : data.mode = DD_COV_TARGET_LINES)
    (hp : prefix_ root filename = 0)
    (ht : ∀ kv ∈ data.coverage, ∃ ls, kv.2 = ary ls) :
    dd_cov_update_line_coverage data (some filename) line
      = some { data with
          coverage := recorded DD_COV_TARGET_LINES data.coverage (rb_str_new2 filename) line } := by
  have hne : ¬ DD_COV_TARGET_LINES = DD_COV_TARGET_FILES := by decide
  by_cases hk : rb_str_new2 filename ∈ keys data.coverage
  · obtain ⟨ls, hls⟩ := ht _ (rb_hash_aref_mem _ _ hk)
    simp only at hls
    have hlo : lines_of data.coverage (rb_str_new2 filename) = ls := by simp [lines_of, hls]
    by_cases hl : line ∈ ls
    · have hsame : rb_hash_aset data.coverage (rb_str_new2 filename) (ary ls) = data.coverage := by
        rw [← hls]; exact rb_hash_aset_aref_self _ _ hk
      simp [dd_cov_update_line_coverage, hr, hm, hp, hne, hls, recorded, hlo, insert_line,
        rb_ary_includes, hl, hsame]
    · simp [dd_cov_update_line_coverage, hr, hm, hp, hne, hls, recorded, hlo, insert_line,
        rb_ary_includes, rb_ary_push, hl]
  · have hnil := rb_hash_aref_not_mem _ _ hk
    have hlo : lines_of data.coverage (rb_str_new2 filename) = [] := by simp [lines_of, hnil]
    simp [dd_cov_update_line_coverage, hr, hm, hp, hne, hnil, recorded, hlo, insert_line,
      rb_ary_includes, rb_ary_push, rb_hash_aset_aset]

theorem hook_in_scope {root : CStr} {mode : Int} {data : dd_cov_data}
    (hinv : DataInv root mode data) (filename : CStr) (line : Int)
    (hp : prefix_ root filename = 0) :
    dd_cov_update_line_coverage data (some filename) line
      = some { data with
          coverage := recorded mode data.coverage (rb_str_new2 filename) line } := by
  rcases hinv.mode_ok with hm | hm
  · subst hm
    rw [hook_files data root filename line hinv.root_eq hinv.mode_eq hp]
    simp [recorded]
  · subst hm
    refine hook_lines data root filename line hinv.root_eq hinv.mode_eq hp ?_
    intro kv hkv
    obtain ⟨ls, hls, _⟩ := hinv.store.lines rfl kv hkv
    exact ⟨ls, hls⟩

theorem hook_inv {root : CStr} {mode : Int} {data : dd_cov_data}
    (hinv : DataInv root mode data) (sourcefile : Option CStr) (line : Int) :
    ∃ data1, dd_cov_update_line_coverage data sourcefile line = some data1
      ∧ DataInv root mode data1 := by
  cases sourcefile with
  | none => exact ⟨data, rfl, hinv⟩
  | some filename =>
    by_cases hp : prefix_ root filename = 0
    · refine ⟨_, hook_in_scope hinv filename line hp, ?_⟩
      have hpre : root <+: filename.takeWhile (fun c => c != 0) :=
        (prefix_takeWhile_iff root hinv.nul_free filename).1
          ((prefix_eq_zero_iff root hinv.nul_free filename).1 hp)
      exact ⟨hinv.root_eq, hinv.mode_eq, hinv.nul_free, hinv.mode_ok,
        recorded_inv hinv.mode_ok hinv.store _ hpre line⟩
    · exact ⟨data, hook_out_of_scope data root filename line hinv.root_eq hp, hinv⟩

theorem hook_idem {root : CStr} {mode : Int} {data data1 : dd_cov_data}
    (hinv : DataInv root mode data) (sourcefile : Option CStr) (line : Int)
    (h : dd_cov_update_line_coverage data sourcefile line = some data1) :
    dd_cov_update_line_coverage data1 sourcefile line = some data1 := by
  obtain ⟨data2, h2, hinv2⟩ := hook_inv hinv sourcefile line
  have e : data2 = data1 := by rw [h2] at h; exact Option.some.inj h
  subst e
  cases sourcefile with
  | none => rfl
  | some filename =>
    by_cases hp : prefix_ root filename = 0
    · rw [hook_in_scope hinv filename line hp] at h
      have e := Option.some.inj h
      rw [hook_in_scope hinv2 filename line hp, ← e]
      simp [recorded_idem]
    · exact hook_out_of_scope data2 root filename line hinv2.root_eq hp

theorem call_hooks_fixed (n : Nat) (data : dd_cov_data) (sourcefile : Option CStr)
    (line : Int) (h : dd_cov_update_line_coverage data sourcefile line = some data) :
    call_hooks n data sourcefile line = some data := by
  induction n with
  | zero => rfl
  | succ n ih => simp [call_hooks, h, ih]

theorem call_hooks_succ {root : CStr} {mode : Int} {data : dd_cov_data}
    (hinv : DataInv root mode data) (n : Nat) (sourcefile : Option CStr) (line : Int) :
    call_hooks (n + 1) data sourcefile line
      = dd_cov_update_line_coverage data sourcefile line := by
  obtain ⟨data1, h1, _⟩ := hook_inv hinv sourcefile line
  simp only [call_hooks, h1]
  exact call_hooks_fixed n data1 sourcefile line (hook_idem hinv sourcefile line h1)

theorem call_hooks_inv {root : CStr} {mode : Int} {data : dd_cov_data}
    (hinv : DataInv root mode data) (n : Nat) (sourcefile : Option CStr) (line : Int) :
    ∃ data1, call_hooks n data sourcefile line = some data1 ∧ DataInv root mode data1 := by
  cases n with
  | zero => exact ⟨data, rfl, hinv⟩
  | succ n =>
    rw [call_hooks_succ hinv]
    exact hook_inv hinv sourcefile line

/-! ## Construction -/

theorem storeInv_empty (root : CStr) (mode : Int) : StoreInv root mode rb_hash_new := by
  refine ⟨by simp [keys, rb_hash_new], ?_, ?_, ?_⟩ <;> simp [rb_hash_new]

theorem initialize_ok {argv : List RbHash} {self data : dd_cov_data} {v : VALUE}
    (h : dd_cov_initialize argv self = (.ok v, data)) :
    ∃ opt root mode, argv = [opt]
      ∧ rb_hash_lookup opt (sym "root") = str root ∧ 0 ∉ root
      ∧ (mode = DD_COV_TARGET_FILES ∨ mode = DD_COV_TARGET_LINES)
      ∧ data = { self with root := some root, mode := mode } := by
  unfold dd_cov_initialize at h
  split at h
  · simp at h
  · rename_i opt hscan
    have hargv : argv = [opt] := by
      unfold rb_scan_args at hscan
      split at hscan
      · simpa using hscan
      · simp at hscan
    simp only at h
    split at h
    · simp at h
    · split at h
      · simp at h
      · rename_i mode hmode
        split at h
        · simp at h
        · rename_i root hroot
          have hdata := (Prod.mk.inj h).2
          refine ⟨opt, root, mode, hargv, ?_, ?_, ?_, hdata.symm⟩
          · unfold StringValueCStr at hroot
            split at hroot
            · rename_i s0 hs
              split at hroot
              · simp at hroot
              · have := Except.ok.inj hroot
                rw [← this]; exact hs
            · simp at hroot
          · unfold StringValueCStr at hroot
            split at hroot
            · split at hroot
              · simp at hroot
              · rename_i hz
                have := Except.ok.inj hroot
                rw [← this]; exact hz
            · simp at hroot
          · split at hmode
            · exact Or.inl (Option.some.inj hmode).symm
            · split at hmode
              · exact Or.inr (Option.some.inj hmode).symm
              · simp at hmode

theorem Cov_new_ok {argv : List RbHash} {data : dd_cov_data} (h : Cov_new argv = .ok data) :
    ∃ opt root, argv = [opt]
      ∧ rb_hash_lookup opt (sym "root") = str root
      ∧ data.coverage = rb_hash_new
      ∧ DataInv root data.mode data := by
  unfold Cov_new at h
  split at h
  · rename_i v self hinit
    obtain ⟨opt, root, mode, hargv, hlook, hz, hmode, hdata⟩ := initialize_ok hinit
    have e : self = data := Except.ok.inj h
    subst e
    subst hdata
    exact ⟨opt, root, hargv, hlook, rfl, rfl, rfl, hz, hmode, storeInv_empty root mode⟩
  · simp at h

/-! ## Sequences of operations -/

theorem step_inv {root : CStr} {mode : Int} {w : World} (hinv : DataInv root mode w.data)
    (op : Op) :
    ∃ w1 out, step w op = some (w1, out) ∧ DataInv root mode w1.data
      ∧ ∀ snap ∈ out, StoreInv root mode snap := by
  cases op with
  | start => exact ⟨dd_cov_start w, [], rfl, hinv, by simp⟩
  | line sourcefile sourceline =>
    obtain ⟨data1, h1, hinv1⟩ := call_hooks_inv hinv w.hooks sourcefile sourceline
    exact ⟨{ w with data := data1 }, [], by simp [step, line_event, h1], hinv1, by simp⟩
  | stop =>
    refine ⟨(dd_cov_stop w).2, [(dd_cov_stop w).1], rfl, ?_, ?_⟩
    · exact ⟨hinv.root_eq, hinv.mode_eq, hinv.nul_free, hinv.mode_ok,
        storeInv_empty root mode⟩
    · intro snap hs
      simp only [List.mem_singleton] at hs
      subst hs
      exact hinv.store

theorem run_inv {root : CStr} {mode : Int} (ops : List Op) (w : World)
    (hinv : DataInv root mode w.data) :
    ∃ w1 snaps, run w ops = some (w1, snaps) ∧ DataInv root mode w1.data
      ∧ ∀ snap ∈ snaps, StoreInv root mode snap := by
  induction ops generalizing w with
  | nil => exact ⟨w, [], rfl, hinv, by simp⟩
  | cons op ops ih =>
    obtain ⟨w1, out, h1, hinv1, hout⟩ := step_inv hinv op
    obtain ⟨w2, outs, h2, hinv2, houts⟩ := ih w1 hinv1
    refine ⟨w2, out ++ outs, by simp [run, h1, h2], hinv2, ?_⟩
    intro snap hs
    rcases List.mem_append.1 hs with h | h
    · exact hout snap h
    · exact houts snap h

theorem run_cons_eq {w w1 w2 : World} {op : Op} {ops : List Op} {out outs : List RbHash}
    (h1 : step w op = some (w1, out)) (h2 : run w1 ops = some (w2, outs)) :
    run w (op :: ops) = some (w2, out ++ outs) := by
  simp [run, h1, h2]

theorem run_append (w : World) (ops1 ops2 : List Op) :
    run w (ops1 ++ ops2) =
      match run w ops1 with
      | none => none
      | some (w1, out1) =>
        match run w1 ops2 with
        | none => none
        | some (w2, out2) => some (w2, out1 ++ out2) := by
  induction ops1 generalizing w with
  | nil =>
    simp only [List.nil_append, run]
    cases run w ops2 with
    | none => rfl
    | some r => simp
  | cons op ops ih =>
    rw [List.cons_append]
    cases hs : step w op with
    | none => simp [run, hs]
    | some r =>
      obtain ⟨w1, out⟩ := r
      cases h1 : run w1 ops with
      | none => simp [run, hs, ih, h1]
      | some r1 =>
        obtain ⟨w2, out1⟩ := r1
        cases h2 : run w2 ops2 with
        | none => simp [run, hs, ih, h1, h2]
        | some r2 => simp [run, hs, ih, h1, h2, List.append_assoc]

/-- C2.  For every successfully constructed collector and every sequence of start,
line-event and stop operations, the run completes and every key of every snapshot
returned by stop is a String that begins with root; so the file of an event that does
not begin with root is a key of no snapshot. -/
theorem snapshot_keys_begin_with_root (argv : List RbHash) (data : dd_cov_data)
    (ops : List Op) (hnew : Cov_new argv = .ok data) :
    ∃ root w snaps, data.root = some root ∧ run ⟨data, 0⟩ ops = some (w, snaps)
      ∧ (∀ snap ∈ snaps, ∀ key ∈ keys snap, ∃ b, key = str b ∧ root <+: b)
      ∧ (∀ snap ∈ snaps, ∀ filename : CStr, ¬ root <+: filename →
          rb_str_new2 filename ∉ keys snap) := by
  obtain ⟨opt, root, _, _, _, hinv⟩ := Cov_new_ok hnew
  obtain ⟨w, snaps, hrun, _, hsnaps⟩ := run_inv ops ⟨data, 0⟩ hinv
  have hkeys : ∀ snap ∈ snaps, ∀ key ∈ keys snap, ∃ b, key = str b ∧ root <+: b := by
    intro snap hs key hk
    obtain ⟨kv, hkv, hfst⟩ := List.mem_map.1 hk
    obtain ⟨b, hb, hpre⟩ := (hsnaps snap hs).in_scope kv hkv
    exact ⟨b, by rw [← hfst, hb], hpre⟩
  refine ⟨root, w, snaps, hinv.root_eq, hrun, hkeys, ?_⟩
  intro snap hs filename hnot hk
  obtain ⟨b, hb, hpre⟩ := hkeys snap hs _ hk
  have hb2 : filename.takeWhile (fun c => c != 0) = b := by
    simpa [rb_str_new2] using hb
  exact hnot ((prefix_takeWhile_iff root hinv.nul_free filename).2 (hb2 ▸ hpre))

theorem snapshot_keys_begin_with_root_witness :
    Cov_new [[(sym "root", str (bytes "/a")), (sym "mode", sym "lines")]]
      = .ok { root := some (bytes "/a"), mode := 2, coverage := [] }
    ∧ ∃ root w snaps,
      (dd_cov_data.mk (some (bytes "/a")) 2 []).root = some root
      ∧ run ⟨dd_cov_data.mk (some (bytes "/a")) 2 [], 0⟩
          [Op.start, Op.line (some (bytes "/a/x")) 3, Op.line (some (bytes "/b")) 1, Op.stop]
          = some (w, snaps)
      ∧ (∀ snap ∈ snaps, ∀ key ∈ keys snap, ∃ b, key = str b ∧ root <+: b)
      ∧ (∀ snap ∈ snaps, ∀ filename : CStr, ¬ root <+: filename →
          rb_str_new2 filename ∉ keys snap) :=
  ⟨rfl, snapshot_keys_begin_with_root
    [[(sym "root", str (bytes "/a")), (sym "mode", sym "lines")]]
    (dd_cov_data.mk (some (bytes "/a")) 2 [])
    [Op.start, Op.line (some (bytes "/a/x")) 3, Op.line (some (bytes "/b")) 1, Op.stop] rfl⟩

/-! ## One session -/

theorem lines_of_recorded (cov : RbHash) (key : VALUE) (item : Int) (x : VALUE) (y : Int) :
    y ∈ lines_of (recorded DD_COV_TARGET_LINES cov key item) x
      ↔ y ∈ lines_of cov x ∨ (x = key ∧ y = item) := by
  have hrec : recorded DD_COV_TARGET_LINES cov key item
      = rb_hash_aset cov key (ary (insert_line (lines_of cov key) item)) := by
    simp [recorded, DD_COV_TARGET_LINES, DD_COV_TARGET_FILES]
  rw [hrec]
  by_cases hx : x = key
  · subst hx
    rw [lines_of_aset_same, insert_line_mem]
    simp
  · rw [lines_of_aset_other cov key _ x hx]
    simp [hx]

theorem hook_effect {root : CStr} {mode : Int} {data : dd_cov_data}
    (hinv : DataInv root mode data) (sourcefile : Option CStr) (line : Int) :
    ∃ data1, dd_cov_update_line_coverage data sourcefile line = some data1
      ∧ DataInv root mode data1
      ∧ (∀ x, x ∈ keys data1.coverage ↔ x ∈ keys data.coverage
          ∨ ∃ f, sourcefile = some f ∧ x = rb_str_new2 f ∧ root <+: f)
      ∧ (mode = DD_COV_TARGET_LINES → ∀ x y, y ∈ lines_of data1.coverage x
          ↔ y ∈ lines_of data.coverage x
            ∨ ∃ f, sourcefile = some f ∧ rb_str_new2 f = x ∧ root <+: f ∧ line = y) := by
  obtain ⟨data1, h1, hinv1⟩ := hook_inv hinv sourcefile line
  refine ⟨data1, h1, hinv1, ?_, ?_⟩
  · intro x
    cases sourcefile with
    | none =>
      have e : data = data1 := Option.some.inj h1
      subst e
      simp
    | some filename =>
      by_cases hp : prefix_ root filename = 0
      · have hpre := (prefix_eq_zero_iff root hinv.nul_free filename).1 hp
        rw [hook_in_scope hinv filename line hp] at h1
        have e := Option.some.inj h1
        rw [← e]
        simp only [mem_keys_recorded]
        constructor
        · rintro (h | h)
          · exact Or.inl h
          · exact Or.inr ⟨filename, rfl, h, hpre⟩
        · rintro (h | ⟨f, hf, hx, _⟩)
          · exact Or.inl h
          · cases hf
            exact Or.inr hx
      · have hpre : ¬ root <+: filename := fun h =>
          hp ((prefix_eq_zero_iff root hinv.nul_free filename).2 h)
        rw [hook_out_of_scope data root filename line hinv.root_eq hp] at h1
        have e : data = data1 := Option.some.inj h1
        subst e
        constructor
        · exact Or.inl
        · rintro (h | ⟨f, hf, _, hin⟩)
          · exact h
          · cases hf
            exact absurd hin hpre
  · intro hm x y
    subst hm
    cases sourcefile with
    | none =>
      have e : data = data1 := Option.some.inj h1
      subst e
      simp
    | some filename =>
      by_cases hp : prefix_ root filename = 0
      · have hpre := (prefix_eq_zero_iff root hinv.nul_free filename).1 hp
        rw [hook_in_scope hinv filename line hp] at h1
        have e := Option.some.inj h1
        rw [← e]
        simp only [lines_of_recorded]
        constructor
        · rintro (h | ⟨hx, hy⟩)
          · exact Or.inl h
          · exact Or.inr ⟨filename, rfl, hx.symm, hpre, hy.symm⟩
        · rintro (h | ⟨f, hf, hx, _, hy⟩)
          · exact Or.inl h
          · cases hf
            exact Or.inr ⟨hx.symm, hy.symm⟩
      · have hpre : ¬ root <+: filename := fun h =>
          hp ((prefix_eq_zero_iff root hinv.nul_free filename).2 h)
        rw [hook_out_of_scope data root filename line hinv.root_eq hp] at h1
        have e : data = data1 := Option.some.inj h1
        subst e
        constructor
        · exact Or.inl
        · rintro (h | ⟨f, hf, _, hin, _⟩)
          · exact h
          · cases hf
            exact absurd hin hpre

theorem run_events_stop {root : CStr} {mode : Int} (events : List (Option CStr × Int))
    (data : dd_cov_data) (n : Nat) (hinv : DataInv root mode data) :
    ∃ w snap, run ⟨data, n + 1⟩ (events.map (fun e => Op.line e.1 e.2) ++ [Op.stop])
        = some (w, [snap])
      ∧ w = ⟨{ data with coverage := rb_hash_new }, 0⟩
      ∧ StoreInv root mode snap
      ∧ (∀ x, x ∈ keys snap ↔ x ∈ keys data.coverage
          ∨ ∃ e ∈ events, ∃ f, e.1 = some f ∧ x = rb_str_new2 f ∧ root <+: f)
      ∧ (mode = DD_COV_TARGET_LINES → ∀ x y, y ∈ lines_of snap x
          ↔ y ∈ lines_of data.coverage x
            ∨ ∃ e ∈ events, ∃ f, e.1 = some f ∧ rb_str_new2 f = x ∧ root <+: f ∧ e.2 = y) := by
  induction events generalizing data with
  | nil =>
    refine ⟨_, data.coverage, rfl, rfl, hinv.store, ?_, ?_⟩
    · intro x; simp
    · intro _ x y; simp
  | cons e es ih =>
    obtain ⟨sf, l⟩ := e
    obtain ⟨data1, h1, hinv1, hk1, hl1⟩ := hook_effect hinv sf l
    obtain ⟨w, snap, hrun, hw, hs, hk, hl⟩ := ih data1 hinv1
    have hroot : data1.root = data.root := by rw [hinv1.root_eq, hinv.root_eq]
    have hmode : data1.mode = data.mode := by rw [hinv1.mode_eq, hinv.mode_eq]
    have hstep : step ⟨data, n + 1⟩ (Op.line sf l) = some (⟨data1, n + 1⟩, []) := by
      simp [step, line_event, call_hooks_succ hinv, h1]
    refine ⟨w, snap, ?_, ?_, hs, ?_, ?_⟩
    · rw [List.map_cons, List.cons_append]
      exact run_cons_eq hstep hrun
    · rw [hw]
      cases data1; cases data
      simp only at hroot hmode
      simp [hroot, hmode]
    · intro x
      rw [hk x, hk1 x]
      simp only [List.mem_cons, exists_eq_or_imp, or_assoc]
    · intro hm x y
      rw [hl hm x y, hl1 hm x y]
      simp only [List.mem_cons, exists_eq_or_imp, or_assoc]

theorem session_eq (events : List (Option CStr × Int)) (w : World) :
    run w (session events)
      = run (dd_cov_start w) (events.map (fun e => Op.line e.1 e.2) ++ [Op.stop]) := by
  simp only [session, run, step, List.nil_append]
  cases run (dd_cov_start w) (events.map (fun e => Op.line e.1 e.2) ++ [Op.stop]) with
  | none => rfl
  | some r => rfl

/-- C3.  Coverage is exact and exhaustive: for a freshly constructed collector, start,
any finite sequence of line events, then stop, the run completes with one snapshot whose
key set is exactly the set of event filenames that are resolvable and begin with root;
and in Lines mode the value under every key p is a list that holds line l if and only
if some event of the sequence had file p and line l. -/
theorem session_snapshot_exact (argv : List RbHash) (data : dd_cov_data)
    (events : List (Option CStr × Int)) (hnew : Cov_new argv = .ok data) :
    ∃ root w snap, data.root = some root
      ∧ run ⟨data, 0⟩ (session events) = some (w, [snap])
      ∧ (∀ key, key ∈ keys snap ↔
          ∃ e ∈ events, ∃ f, e.1 = some f ∧ key = rb_str_new2 f ∧ root <+: f)
      ∧ (data.mode = DD_COV_TARGET_LINES → ∀ key ∈ keys snap,
          ∃ ls, rb_hash_aref snap key = ary ls
            ∧ ∀ l, l ∈ ls ↔ ∃ e ∈ events, ∃ f, e.1 = some f ∧ rb_str_new2 f = key ∧ e.2 = l) := by
  obtain ⟨opt, root, _, _, hcov, hinv⟩ := Cov_new_ok hnew
  obtain ⟨w, snap, hrun, _, hs, hk, hl⟩ := run_events_stop events data 0 hinv
  refine ⟨root, w, snap, hinv.root_eq, ?_, ?_, ?_⟩
  · rw [session_eq]; exact hrun
  · intro key
    rw [hk key, hcov]
    simp [keys, rb_hash_new]
  · intro hm key hkey
    obtain ⟨ls, hls, _, _⟩ := hs.lines hm _ (rb_hash_aref_mem snap key hkey)
    simp only at hls
    refine ⟨ls, hls, ?_⟩
    intro l
    have hlo : lines_of snap key = ls := by simp [lines_of, hls]
    have h0 : lines_of data.coverage key = [] := by rw [hcov]; rfl
    have := hl hm key l
    rw [hlo, h0] at this
    rw [this]
    constructor
    · rintro (h | ⟨e, he, f, hf, hkf, _, hline⟩)
      · simp at h
      · exact ⟨e, he, f, hf, hkf, hline⟩
    · rintro ⟨e, he, f, hf, hkf, hline⟩
      refine Or.inr ⟨e, he, f, hf, hkf, ?_, hline⟩
      obtain ⟨b, hb, hpre⟩ := hs.in_scope _ (rb_hash_aref_mem snap key hkey)
      simp only at hb
      have hb2 : f.takeWhile (fun c => c != 0) = b := by
        rw [← hkf] at hb
        simpa [rb_str_new2] using hb
      exact (prefix_takeWhile_iff root hinv.nul_free f).2 (hb2 ▸ hpre)

theorem session_snapshot_exact_witness :
    Cov_new [[(sym "root", str (bytes "/a")), (sym "mode", sym "lines")]]
      = .ok { root := some (bytes "/a"), mode := 2, coverage := [] }
    ∧ ∃ root w snap,
      (dd_cov_data.mk (some (bytes "/a")) 2 []).root = some root
      ∧ run ⟨dd_cov_data.mk (some (bytes "/a")) 2 [], 0⟩
          (session [(some (bytes "/a/x"), 3), (none, 4), (some (bytes "/b"), 1)])
          = some (w, [snap])
      ∧ (∀ key, key ∈ keys snap ↔
          ∃ e ∈ [(some (bytes "/a/x"), (3 : Int)), (none, 4), (some (bytes "/b"), 1)],
            ∃ f, e.1 = some f ∧ key = rb_str_new2 f ∧ root <+: f)
      ∧ ((dd_cov_data.mk (some (bytes "/a")) 2 []).mode = DD_COV_TARGET_LINES →
          ∀ key ∈ keys snap,
          ∃ ls, rb_hash_aref snap key = ary ls
            ∧ ∀ l, l ∈ ls ↔
              ∃ e ∈ [(some (bytes "/a/x"), (3 : Int)), (none, 4), (some (bytes "/b"), 1)],
                ∃ f, e.1 = some f ∧ rb_str_new2 f = key ∧ e.2 = l) :=
  ⟨rfl, session_snapshot_exact
    [[(sym "root", str (bytes "/a")), (sym "mode", sym "lines")]]
    (dd_cov_data.mk (some (bytes "/a")) 2 [])
    [(some (bytes "/a/x"), 3), (none, 4), (some (bytes "/b"), 1)] rfl⟩

/-! ## Idempotent recording -/

theorem reachable_inv {argv : List RbHash} {data : dd_cov_data} {ops : List Op} {w : World}
    {snaps : List RbHash} (hnew : Cov_new argv = .ok data)
    (hrun : run ⟨data, 0⟩ ops = some (w, snaps)) :
    ∃ root, data.root = some root ∧ data.coverage = rb_hash_new
      ∧ DataInv root data.mode data ∧ DataInv root data.mode w.data
      ∧ ∀ snap ∈ snaps, StoreInv root data.mode snap := by
  obtain ⟨opt, root, _, _, hcov, hinv⟩ := Cov_new_ok hnew
  obtain ⟨w1, snaps1, hrun1, hinv1, hsn⟩ := run_inv ops ⟨data, 0⟩ hinv
  rw [hrun] at hrun1
  have e := Prod.mk.inj (Option.some.inj hrun1)
  rw [← e.1] at hinv1
  rw [← e.2] at hsn
  exact ⟨root, hinv.root_eq, hcov, hinv, hinv1, hsn⟩

/-- C4.  Idempotent line recording: in Lines mode, for every collector state reachable
from a fresh collector, every in-scope file, every line number and every N >= 1, running
the hook N times on the event gives the same collector state as running it once, and in
that state the value under the file is a list that holds the line exactly once. -/
theorem line_recording_idempotent (argv : List RbHash) (data : dd_cov_data) (ops : List Op)
    (w : World) (snaps : List RbHash) (root filename : CStr) (line : Int) (N : Nat)
    (hnew : Cov_new argv = .ok data) (hrun : run ⟨data, 0⟩ ops = some (w, snaps))
    (hmode : data.mode = DD_COV_TARGET_LINES) (hroot : data.root = some root)
    (hscope : root <+: filename) (hN : 1 ≤ N) :
    ∃ data1 ls, dd_cov_update_line_coverage w.data (some filename) line = some data1
      ∧ call_hooks N w.data (some filename) line = some data1
      ∧ rb_hash_aref data1.coverage (rb_str_new2 filename) = ary ls
      ∧ ls.count line = 1 := by
  obtain ⟨root1, hroot1, _, _, hinv, _⟩ := reachable_inv hnew hrun
  have e : root1 = root := by rw [hroot] at hroot1; exact (Option.some.inj hroot1).symm
  subst e
  rw [hmode] at hinv
  have hp : prefix_ root1 filename = 0 :=
    (prefix_eq_zero_iff root1 hinv.nul_free filename).2 hscope
  obtain ⟨n, rfl⟩ : ∃ n, N = n + 1 := ⟨N - 1, by omega⟩
  have hone := hook_in_scope hinv filename line hp
  refine ⟨_, insert_line (lines_of w.data.coverage (rb_str_new2 filename)) line, hone, ?_, ?_, ?_⟩
  · rw [call_hooks_succ hinv]; exact hone
  · simp [recorded, DD_COV_TARGET_LINES, DD_COV_TARGET_FILES, rb_hash_aref_aset_same]
  · exact List.count_eq_one_of_mem
      (insert_line_nodup _ _ (lines_of_nodup hinv.store _))
      ((insert_line_mem _ _ _).2 (Or.inr rfl))

theorem line_recording_idempotent_witness :
    Cov_new [[(sym "root", str (bytes "/a")), (sym "mode", sym "lines")]]
      = .ok { root := some (bytes "/a"), mode := 2, coverage := [] }
    ∧ run ⟨dd_cov_data.mk (some (bytes "/a")) 2 [], 0⟩
        [Op.start, Op.line (some (bytes "/a/x")) 3, Op.line (some (bytes "/a/x")) 5]
      = some (⟨dd_cov_data.mk (some (bytes "/a")) 2 [(str (bytes "/a/x"), ary [3, 5])], 1⟩, [])
    ∧ ∃ data1 ls,
      dd_cov_update_line_coverage
          (dd_cov_data.mk (some (bytes "/a")) 2 [(str (bytes "/a/x"), ary [3, 5])])
          (some (bytes "/a/x")) 3 = some data1
      ∧ call_hooks 4
          (dd_cov_data.mk (some (bytes "/a")) 2 [(str (bytes "/a/x"), ary [3, 5])])
          (some (bytes "/a/x")) 3 = some data1
      ∧ rb_hash_aref data1.coverage (rb_str_new2 (bytes "/a/x")) = ary ls
      ∧ ls.count 3 = 1 :=
  ⟨rfl, by decide, line_recording_idempotent
    [[(sym "root", str (bytes "/a")), (sym "mode", sym "lines")]]
    (dd_cov_data.mk (some (bytes "/a")) 2 [])
    [Op.start, Op.line (some (bytes "/a/x")) 3, Op.line (some (bytes "/a/x")) 5]
    ⟨dd_cov_data.mk (some (bytes "/a")) 2 [(str (bytes "/a/x"), ary [3, 5])], 1⟩ []
    (bytes "/a") (bytes "/a/x") 3 4 rfl (by decide) rfl rfl (by decide) (by decide)⟩

/-- C5.  Idempotent file recording: in Files mode, for every store, every in-scope file
and every N >= 1, running the hook N times on an event for the file gives the same
collector state, hence the same snapshot at stop, as running it once; and if the file is
already a key of a Files-mode store the hook leaves the collector unchanged. -/
theorem file_recording_idempotent (data : dd_cov_data) (root filename : CStr) (line : Int)
    (N hooks : Nat) (hroot : data.root = some root) (hnul : 0 ∉ root)
    (hmode : data.mode = DD_COV_TARGET_FILES) (hscope : root <+: filename) (hN : 1 ≤ N) :
    ∃ data1 dataN, dd_cov_update_line_coverage data (some filename) line = some data1
      ∧ call_hooks N data (some filename) line = some dataN
      ∧ dataN = data1
      ∧ (dd_cov_stop ⟨dataN, hooks⟩).1 = (dd_cov_stop ⟨data1, hooks⟩).1
      ∧ ((∀ kv ∈ data.coverage, kv.2 = Qtrue) →
          rb_str_new2 filename ∈ keys data.coverage → data1 = data) := by
  have hp : prefix_ root filename = 0 := (prefix_eq_zero_iff root hnul filename).2 hscope
  obtain ⟨n, rfl⟩ : ∃ n, N = n + 1 := ⟨N - 1, by omega⟩
  have hone := hook_files data root filename line hroot hmode hp
  have htwo : dd_cov_update_line_coverage
      { data with coverage := rb_hash_aset data.coverage (rb_str_new2 filename) Qtrue }
      (some filename) line
      = some { data with
          coverage := rb_hash_aset data.coverage (rb_str_new2 filename) Qtrue } := by
    rw [hook_files
      { data with coverage := rb_hash_aset data.coverage (rb_str_new2 filename) Qtrue }
      root filename line hroot hmode hp]
    simp [rb_hash_aset_aset]
  refine ⟨_, _, hone, ?_, rfl, rfl, ?_⟩
  · simp only [call_hooks, hone]
    exact call_hooks_fixed n _ _ _ htwo
  · intro hall hkey
    have hv := hall _ (rb_hash_aref_mem _ _ hkey)
    simp only at hv
    have := rb_hash_aset_aref_self data.coverage (rb_str_new2 filename) hkey
    rw [hv] at this
    rw [this]

theorem file_recording_idempotent_witness :
    (dd_cov_data.mk (some (bytes "/a")) 1 [(str (bytes "/a/y"), Qtrue)]).root
      = some (bytes "/a")
    ∧ 0 ∉ bytes "/a" ∧ bytes "/a" <+: bytes "/a/x" ∧ 1 ≤ 3
    ∧ ∃ data1 dataN,
      dd_cov_update_line_coverage
          (dd_cov_data.mk (some (bytes "/a")) 1 [(str (bytes "/a/y"), Qtrue)])
          (some (bytes "/a/x")) 7 = some data1
      ∧ call_hooks 3 (dd_cov_data.mk (some (bytes "/a")) 1 [(str (bytes "/a/y"), Qtrue)])
          (some (bytes "/a/x")) 7 = some dataN
      ∧ dataN = data1
      ∧ (dd_cov_stop ⟨dataN, 2⟩).1 = (dd_cov_stop ⟨data1, 2⟩).1
      ∧ ((∀ kv ∈ (dd_cov_data.mk (some (bytes "/a")) 1
              [(str (bytes "/a/y"), Qtrue)]).coverage, kv.2 = Qtrue) →
          rb_str_new2 (bytes "/a/x") ∈ keys (dd_cov_data.mk (some (bytes "/a")) 1
              [(str (bytes "/a/y"), Qtrue)]).coverage →
          data1 = dd_cov_data.mk (some (bytes "/a")) 1 [(str (bytes "/a/y"), Qtrue)]) :=
  ⟨rfl, by decide, by decide, by decide, file_recording_idempotent
    (dd_cov_data.mk (some (bytes "/a")) 1 [(str (bytes "/a/y"), Qtrue)])
    (bytes "/a") (bytes "/a/x") 7 3 2 rfl (by decide) rfl (by decide) (by decide)⟩

/-! ## Stop and reuse -/

/-- C6.  Reset-on-stop: for every collector state, stop leaves the collector holding an
empty store, so a stop right after another stop, or a start/stop cycle with no event,
returns an empty mapping; and so does stop on a freshly constructed collector that was
never started. -/
theorem stop_resets_store (w : World) (argv : List RbHash) (data : dd_cov_data)
    (hnew : Cov_new argv = .ok data) :
    (dd_cov_stop w).2.data.coverage = rb_hash_new
    ∧ (dd_cov_stop (dd_cov_stop w).2).1 = rb_hash_new
    ∧ run w [Op.stop, Op.stop] = some ((dd_cov_stop w).2, [w.data.coverage, rb_hash_new])
    ∧ run w [Op.stop, Op.start, Op.stop]
        = some ((dd_cov_stop w).2, [w.data.coverage, rb_hash_new])
    ∧ run ⟨data, 0⟩ [Op.stop] = some (⟨data, 0⟩, [rb_hash_new]) := by
  obtain ⟨opt, root, _, _, hcov, _⟩ := Cov_new_ok hnew
  refine ⟨rfl, rfl, rfl, rfl, ?_⟩
  cases data
  simp only at hcov
  subst hcov
  rfl

theorem stop_resets_store_witness :
    Cov_new [[(sym "root", str (bytes "/a"))]]
      = .ok { root := some (bytes "/a"), mode := 1, coverage := [] }
    ∧ (dd_cov_stop ⟨dd_cov_data.mk (some (bytes "/a")) 1
          [(str (bytes "/a/y"), Qtrue)], 1⟩).2.data.coverage = rb_hash_new
    ∧ (dd_cov_stop (dd_cov_stop ⟨dd_cov_data.mk (some (bytes "/a")) 1
          [(str (bytes "/a/y"), Qtrue)], 1⟩).2).1 = rb_hash_new
    ∧ run ⟨dd_cov_data.mk (some (bytes "/a")) 1 [(str (bytes "/a/y"), Qtrue)], 1⟩
        [Op.stop, Op.stop]
      = some ((dd_cov_stop ⟨dd_cov_data.mk (some (bytes "/a")) 1
          [(str (bytes "/a/y"), Qtrue)], 1⟩).2,
        [(dd_cov_data.mk (some (bytes "/a")) 1 [(str (bytes "/a/y"), Qtrue)]).coverage,
          rb_hash_new])
    ∧ run ⟨dd_cov_data.mk (some (bytes "/a")) 1 [(str (bytes "/a/y"), Qtrue)], 1⟩
        [Op.stop, Op.start, Op.stop]
      = some ((dd_cov_stop ⟨dd_cov_data.mk (some (bytes "/a")) 1
          [(str (bytes "/a/y"), Qtrue)], 1⟩).2,
        [(dd_cov_data.mk (some (bytes "/a")) 1 [(str (bytes "/a/y"), Qtrue)]).coverage,
          rb_hash_new])
    ∧ run ⟨dd_cov_data.mk (some (bytes "/a")) 1 [], 0⟩ [Op.stop]
      = some (⟨dd_cov_data.mk (some (bytes "/a")) 1 [], 0⟩, [rb_hash_new]) :=
  ⟨rfl, stop_resets_store
    ⟨dd_cov_data.mk (some (bytes "/a")) 1 [(str (bytes "/a/y"), Qtrue)], 1⟩
    [[(sym "root", str (bytes "/a"))]]
    (dd_cov_data.mk (some (bytes "/a")) 1 []) rfl⟩

/-- C7.  The collector is reusable with no leakage between sessions: for every
collector state reachable from a successful construction and every two consecutive
start/events/stop cycles, both cycles complete, and the snapshot the second stop returns
is the snapshot a freshly constructed collector with the same root and mode returns for
the second cycle alone, whatever the events of the first cycle were. -/
theorem second_session_independent (argv : List RbHash) (data : dd_cov_data) (ops : List Op)
    (w : World) (snaps : List RbHash) (events1 events2 : List (Option CStr × Int))
    (hnew : Cov_new argv = .ok data) (hrun : run ⟨data, 0⟩ ops = some (w, snaps)) :
    ∃ snap1 snap2 w2,
      run w (session events1) = some (⟨data, 0⟩, [snap1])
      ∧ run w (session events1 ++ session events2) = some (w2, [snap1, snap2])
      ∧ run ⟨data, 0⟩ (session events2) = some (w2, [snap2]) := by
  obtain ⟨root, _, hcov, hinv0, hinv, _⟩ := reachable_inv hnew hrun
  obtain ⟨w1, snap1, hrun1, hw1, _, _, _⟩ := run_events_stop events1 w.data w.hooks hinv
  have hw : w1 = ⟨data, 0⟩ := by
    rw [hw1]
    have h1 : w.data.root = data.root := by rw [hinv.root_eq, hinv0.root_eq]
    have h2 : w.data.mode = data.mode := hinv.mode_eq
    cases data
    simp only at h1 h2 hcov
    simp [h1, h2, hcov]
  subst hw
  obtain ⟨w2, snap2, hrun2, _, _, _, _⟩ := run_events_stop events2 data 0 hinv0
  have hs1 : run w (session events1) = some (⟨data, 0⟩, [snap1]) := by
    rw [session_eq]; exact hrun1
  have hs2 : run ⟨data, 0⟩ (session events2) = some (w2, [snap2]) := by
    rw [session_eq]; exact hrun2
  refine ⟨snap1, snap2, w2, hs1, ?_, hs2⟩
  rw [run_append, hs1]
  simp only [hs2, List.singleton_append]

theorem second_session_independent_witness :
    Cov_new [[(sym "root", str (bytes "/a")), (sym "mode", sym "lines")]]
      = .ok { root := some (bytes "/a"), mode := 2, coverage := [] }
    ∧ run ⟨dd_cov_data.mk (some (bytes "/a")) 2 [], 0⟩
        [Op.start, Op.line (some (bytes "/a/x")) 3]
      = some (⟨dd_cov_data.mk (some (bytes "/a")) 2 [(str (bytes "/a/x"), ary [3])], 1⟩, [])
    ∧ ∃ snap1 snap2 w2,
      run ⟨dd_cov_data.mk (some (bytes "/a")) 2 [(str (bytes "/a/x"), ary [3])], 1⟩
          (session [(some (bytes "/a/y"), 1)])
        = some (⟨dd_cov_data.mk (some (bytes "/a")) 2 [], 0⟩, [snap1])
      ∧ run ⟨dd_cov_data.mk (some (bytes "/a")) 2 [(str (bytes "/a/x"), ary [3])], 1⟩
          (session [(some (bytes "/a/y"), 1)] ++ session [(some (bytes "/a/z"), 2)])
        = some (w2, [snap1, snap2])
      ∧ run ⟨dd_cov_data.mk (some (bytes "/a")) 2 [], 0⟩ (session [(some (bytes "/a/z"), 2)])
        = some (w2, [snap2]) :=
  ⟨rfl, by decide, second_session_independent
    [[(sym "root", str (bytes "/a")), (sym "mode", sym "lines")]]
    (dd_cov_data.mk (some (bytes "/a")) 2 [])
    [Op.start, Op.line (some (bytes "/a/x")) 3]
    ⟨dd_cov_data.mk (some (bytes "/a")) 2 [(str (bytes "/a/x"), ary [3])], 1⟩ []
    [(some (bytes "/a/y"), 1)] [(some (bytes "/a/z"), 2)] rfl (by decide)⟩

/-! ## Mode exclusivity -/

/-- C8.  Files-mode exclusivity: for a collector constructed in Files mode and every
sequence of start, event and stop operations, the run completes and in every snapshot
every key maps to the `true` marker, never to a list of line numbers. -/
theorem files_mode_values_true (argv : List RbHash) (data : dd_cov_data) (ops : List Op)
    (hnew : Cov_new argv = .ok data) (hmode : data.mode = DD_COV_TARGET_FILES) :
    ∃ w snaps, run ⟨data, 0⟩ ops = some (w, snaps)
      ∧ ∀ snap ∈ snaps, ∀ kv ∈ snap, kv.2 = Qtrue ∧ ∀ ls, kv.2 ≠ ary ls := by
  obtain ⟨opt, root, _, _, _, hinv⟩ := Cov_new_ok hnew
  obtain ⟨w, snaps, hrun, _, hsnaps⟩ := run_inv ops ⟨data, 0⟩ hinv
  refine ⟨w, snaps, hrun, ?_⟩
  intro snap hs kv hkv
  have ht := (hsnaps snap hs).files hmode kv hkv
  exact ⟨ht, fun ls h => by rw [ht] at h; cases h⟩

theorem files_mode_values_true_witness :
    Cov_new [[(sym "root", str (bytes "/a")), (sym "mode", sym "files")]]
      = .ok { root := some (bytes "/a"), mode := 1, coverage := [] }
    ∧ ∃ w snaps,
      run ⟨dd_cov_data.mk (some (bytes "/a")) 1 [], 0⟩
          [Op.start, Op.line (some (bytes "/a/x")) 3, Op.stop, Op.stop] = some (w, snaps)
      ∧ ∀ snap ∈ snaps, ∀ kv ∈ snap, kv.2 = Qtrue ∧ ∀ ls, kv.2 ≠ ary ls :=
  ⟨rfl, files_mode_values_true
    [[(sym "root", str (bytes "/a")), (sym "mode", sym "files")]]
    (dd_cov_data.mk (some (bytes "/a")) 1 [])
    [Op.start, Op.line (some (bytes "/a/x")) 3, Op.stop, Op.stop] rfl rfl⟩

/-- C9.  Lines-mode exclusivity: for a collector constructed in Lines mode and every
sequence of start, event and stop operations, the run completes and in every snapshot
each key appears at most once and maps to a list of line numbers that is non-empty and
has no duplicates. -/
theorem lines_mode_values_lists (argv : List RbHash) (data : dd_cov_data) (ops : List Op)
    (hnew : Cov_new argv = .ok data) (hmode : data.mode = DD_COV_TARGET_LINES) :
    ∃ w snaps, run ⟨data, 0⟩ ops = some (w, snaps)
      ∧ ∀ snap ∈ snaps, (keys snap).Nodup
        ∧ ∀ kv ∈ snap, ∃ ls, kv.2 = ary ls ∧ ls ≠ [] ∧ ls.Nodup := by
  obtain ⟨opt, root, _, _, _, hinv⟩ := Cov_new_ok hnew
  obtain ⟨w, snaps, hrun, _, hsnaps⟩ := run_inv ops ⟨data, 0⟩ hinv
  refine ⟨w, snaps, hrun, ?_⟩
  intro snap hs
  exact ⟨(hsnaps snap hs).nodup, (hsnaps snap hs).lines hmode⟩

theorem lines_mode_values_lists_witness :
    Cov_new [[(sym "root", str (bytes "/a")), (sym "mode", sym "lines")]]
      = .ok { root := some (bytes "/a"), mode := 2, coverage := [] }
    ∧ ∃ w snaps,
      run ⟨dd_cov_data.mk (some (bytes "/a")) 2 [], 0⟩
          [Op.start, Op.line (some (bytes "/a/x")) 3, Op.line (some (bytes "/a/x")) 3,
            Op.stop] = some (w, snaps)
      ∧ ∀ snap ∈ snaps, (keys snap).Nodup
        ∧ ∀ kv ∈ snap, ∃ ls, kv.2 = ary ls ∧ ls ≠ [] ∧ ls.Nodup :=
  ⟨rfl, lines_mode_values_lists
    [[(sym "root", str (bytes "/a")), (sym "mode", sym "lines")]]
    (dd_cov_data.mk (some (bytes "/a")) 2 [])
    [Op.start, Op.line (some (bytes "/a/x")) 3, Op.line (some (bytes "/a/x")) 3, Op.stop]
    rfl rfl⟩

/-! ## Construction validation -/

theorem initialize_no_root (opt : RbHash) (self : dd_cov_data)
    (h : RTEST (rb_hash_lookup opt (sym "root")) = false) :
    dd_cov_initialize [opt] self = (.error (.rb_eArgError "root is required"), self) := by
  simp [rb_scan_args, dd_cov_initialize, h]

theorem initialize_valid_mode (opt : RbHash) (self : dd_cov_data)
    (hroot : RTEST (rb_hash_lookup opt (sym "root")) = true)
    (hmode : sym "mode" ∉ keys opt ∨ rb_hash_lookup opt (sym "mode") = sym "files"
      ∨ rb_hash_lookup opt (sym "mode") = sym "lines") :
    ∃ mode, dd_cov_initialize [opt] self =
      match StringValueCStr (rb_hash_lookup opt (sym "root")) with
      | .error e => (.error e, self)
      | .ok root => (.ok Qnil, { self with root := some root, mode := mode }) := by
  have hn : RTEST Qnil = false := rfl
  have hl : RTEST (sym "lines") = true := rfl
  rcases hmode with hm | hm | hm
  · have hnil : rb_hash_lookup opt (sym "mode") = Qnil := rb_hash_aref_not_mem opt _ hm
    exact ⟨DD_COV_TARGET_FILES, by simp [rb_scan_args, dd_cov_initialize, hroot, hnil, hn]⟩
  · exact ⟨DD_COV_TARGET_FILES, by simp [rb_scan_args, dd_cov_initialize, hroot, hm]⟩
  · exact ⟨DD_COV_TARGET_LINES, by simp [rb_scan_args, dd_cov_initialize, hroot, hm, hl]⟩

/-- C10, as amended.  Construction fails with an argument error whenever the options
carry no root (the root key is missing or its value is nil or false), for every value of
mode.  With a valid mode: a root that is a String without NUL bytes makes construction
succeed and is stored; a root that is present but not a String makes construction fail
with a type error; a String root holding a NUL byte makes it fail with an argument
error. -/
theorem construction_validates_root (opt : RbHash) :
    ((sym "root" ∉ keys opt ∨ rb_hash_lookup opt (sym "root") = Qnil
        ∨ rb_hash_lookup opt (sym "root") = Qfalse) →
      Cov_new [opt] = .error (.rb_eArgError "root is required"))
    ∧ ((sym "mode" ∉ keys opt ∨ rb_hash_lookup opt (sym "mode") = sym "files"
        ∨ rb_hash_lookup opt (sym "mode") = sym "lines") →
      (∀ root, rb_hash_lookup opt (sym "root") = str root → 0 ∉ root →
        ∃ data, Cov_new [opt] = .ok data ∧ data.root = some root
          ∧ data.coverage = rb_hash_new)
      ∧ (∀ root, rb_hash_lookup opt (sym "root") = str root → 0 ∈ root →
        Cov_new [opt] = .error (.rb_eArgError "string contains null byte"))
      ∧ (RTEST (rb_hash_lookup opt (sym "root")) = true →
        (∀ root, rb_hash_lookup opt (sym "root") ≠ str root) →
        Cov_new [opt] = .error (.rb_eTypeError "no implicit conversion into String"))) := by
  constructor
  · intro h
    have hf : RTEST (rb_hash_lookup opt (sym "root")) = false := by
      rcases h with h | h | h
      · rw [show rb_hash_lookup opt (sym "root") = Qnil from rb_hash_aref_not_mem opt _ h]
        rfl
      · rw [h]; rfl
      · rw [h]; rfl
    simp [Cov_new, initialize_no_root opt dd_cov_allocate hf]
  · intro hmode
    refine ⟨?_, ?_, ?_⟩
    · intro root hroot hnul
      have ht : RTEST (rb_hash_lookup opt (sym "root")) = true := by rw [hroot]; rfl
      obtain ⟨mode, hinit⟩ := initialize_valid_mode opt dd_cov_allocate ht hmode
      refine ⟨{ dd_cov_allocate with root := some root, mode := mode }, ?_, rfl, rfl⟩
      simp [Cov_new, hinit, hroot, StringValueCStr, hnul]
    · intro root hroot hnul
      have ht : RTEST (rb_hash_lookup opt (sym "root")) = true := by rw [hroot]; rfl
      obtain ⟨mode, hinit⟩ := initialize_valid_mode opt dd_cov_allocate ht hmode
      simp [Cov_new, hinit, hroot, StringValueCStr, hnul]
    · intro ht hns
      obtain ⟨mode, hinit⟩ := initialize_valid_mode opt dd_cov_allocate ht hmode
      have hsv : StringValueCStr (rb_hash_lookup opt (sym "root"))
          = .error (.rb_eTypeError "no implicit conversion into String") := by
        cases hv : rb_hash_lookup opt (sym "root") with
        | str root => exact absurd hv (hns root)
        | _ => rfl
      simp [Cov_new, hinit, hsv]

theorem construction_validates_root_witness :
    Cov_new [[(sym "mode", sym "lines")]] = .error (.rb_eArgError "root is required")
    ∧ (∃ data, Cov_new [[(sym "root", str (bytes "/a")), (sym "mode", sym "lines")]]
          = .ok data ∧ data.root = some (bytes "/a") ∧ data.coverage = rb_hash_new)
    ∧ Cov_new [[(sym "root", str [97, 0, 98])]]
        = .error (.rb_eArgError "string contains null byte")
    ∧ Cov_new [[(sym "root", fixnum 42), (sym "mode", sym "files")]]
        = .error (.rb_eTypeError "no implicit conversion into String") :=
  ⟨(construction_validates_root [(sym "mode", sym "lines")]).1 (Or.inl (by decide)),
   ((construction_validates_root [(sym "root", str (bytes "/a")), (sym "mode", sym "lines")]).2
      (Or.inr (Or.inr rfl))).1 (bytes "/a") rfl (by decide),
   ((construction_validates_root [(sym "root", str [97, 0, 98])]).2
      (Or.inl (by decide))).2.1 [97, 0, 98] rfl (by decide),
   ((construction_validates_root [(sym "root", fixnum 42), (sym "mode", sym "files")]).2
      (Or.inr (Or.inl rfl))).2.2 rfl (fun root h => by cases h)⟩

/-- C10, the claim as stated fails: a root that is present, here the String "a\0b"
with a NUL byte and the Fixnum 42, together with a valid mode, does not make
construction succeed. -/
theorem construction_with_present_root_fails :
    RTEST (rb_hash_lookup [(sym "root", str [97, 0, 98]), (sym "mode", sym "lines")]
        (sym "root")) = true
    ∧ Cov_new [[(sym "root", str [97, 0, 98]), (sym "mode", sym "lines")]]
        = .error (.rb_eArgError "string contains null byte")
    ∧ RTEST (rb_hash_lookup [(sym "root", fixnum 42)] (sym "root")) = true
    ∧ Cov_new [[(sym "root", fixnum 42)]]
        = .error (.rb_eTypeError "no implicit conversion into String") :=
  ⟨rfl, rfl, rfl, rfl⟩

/-! ## Mode selection -/

theorem initialize_mode_files (opt : RbHash) (self : dd_cov_data) (root : CStr)
    (hroot : rb_hash_lookup opt (sym "root") = str root) (hnul : 0 ∉ root)
    (hmode : RTEST (rb_hash_lookup opt (sym "mode")) = false
      ∨ rb_hash_lookup opt (sym "mode") = sym "files") :
    dd_cov_initialize [opt] self
      = (.ok Qnil, { self with root := some root, mode := DD_COV_TARGET_FILES }) := by
  have ht : RTEST (str root) = true := rfl
  rcases hmode with hm | hm
  · simp [rb_scan_args, dd_cov_initialize, hroot, ht, hm, StringValueCStr, hnul]
  · simp [rb_scan_args, dd_cov_initialize, hroot, ht, hm, StringValueCStr, hnul]

theorem initialize_mode_lines (opt : RbHash) (self : dd_cov_data) (root : CStr)
    (hroot : rb_hash_lookup opt (sym "root") = str root) (hnul : 0 ∉ root)
    (hmode : rb_hash_lookup opt (sym "mode") = sym "lines") :
    dd_cov_initialize [opt] self
      = (.ok Qnil, { self with root := some root, mode := DD_COV_TARGET_LINES }) := by
  have ht : RTEST (str root) = true := rfl
  have hl : RTEST (sym "lines") = true := rfl
  simp [rb_scan_args, dd_cov_initialize, hroot, ht, hl, hmode, StringValueCStr, hnul]

theorem initialize_mode_invalid (opt : RbHash) (self : dd_cov_data)
    (hroot : RTEST (rb_hash_lookup opt (sym "root")) = true)
    (ht : RTEST (rb_hash_lookup opt (sym "mode")) = true)
    (hf : rb_hash_lookup opt (sym "mode") ≠ sym "files")
    (hl : rb_hash_lookup opt (sym "mode") ≠ sym "lines") :
    dd_cov_initialize [opt] self = (.error (.rb_eArgError "mode is invalid"), self) := by
  simp [rb_scan_args, dd_cov_initialize, hroot, ht, hf, hl]

/-- C11, as amended.  Mode selection at construction, given a root that is a String
without NUL bytes: a mode that is absent, nil or false selects Files (the default), the
symbol files selects Files, the symbol lines selects Lines, and any other mode value
(one that is neither nil nor false nor one of the two symbols) makes construction fail
with an argument error. -/
theorem mode_selection (opt : RbHash) (root : CStr)
    (hroot : rb_hash_lookup opt (sym "root") = str root) (hnul : 0 ∉ root) :
    ((sym "mode" ∉ keys opt ∨ rb_hash_lookup opt (sym "mode") = Qnil
        ∨ rb_hash_lookup opt (sym "mode") = Qfalse
        ∨ rb_hash_lookup opt (sym "mode") = sym "files") →
      Cov_new [opt]
        = .ok { root := some root, mode := DD_COV_TARGET_FILES, coverage := rb_hash_new })
    ∧ (rb_hash_lookup opt (sym "mode") = sym "lines" →
      Cov_new [opt]
        = .ok { root := some root, mode := DD_COV_TARGET_LINES, coverage := rb_hash_new })
    ∧ (rb_hash_lookup opt (sym "mode") ≠ Qnil → rb_hash_lookup opt (sym "mode") ≠ Qfalse →
      rb_hash_lookup opt (sym "mode") ≠ sym "files" →
      rb_hash_lookup opt (sym "mode") ≠ sym "lines" →
      Cov_new [opt] = .error (.rb_eArgError "mode is invalid")) := by
  refine ⟨?_, ?_, ?_⟩
  · intro h
    have hm : RTEST (rb_hash_lookup opt (sym "mode")) = false
        ∨ rb_hash_lookup opt (sym "mode") = sym "files" := by
      rcases h with h | h | h | h
      · left
        rw [show rb_hash_lookup opt (sym "mode") = Qnil from rb_hash_aref_not_mem opt _ h]
        rfl
      · left; rw [h]; rfl
      · left; rw [h]; rfl
      · exact Or.inr h
    unfold Cov_new
    rw [initialize_mode_files opt dd_cov_allocate root hroot hnul hm]
    rfl
  · intro h
    unfold Cov_new
    rw [initialize_mode_lines opt dd_cov_allocate root hroot hnul h]
    rfl
  · intro h1 h2 h3 h4
    have hr : RTEST (rb_hash_lookup opt (sym "root")) = true := by rw [hroot]; rfl
    have ht : RTEST (rb_hash_lookup opt (sym "mode")) = true := by
      cases hv : rb_hash_lookup opt (sym "mode") with
      | Qnil => exact absurd hv h1
      | Qfalse => exact absurd hv h2
      | _ => rfl
    simp [Cov_new, initialize_mode_invalid opt dd_cov_allocate hr ht h3 h4]

theorem mode_selection_witness :
    Cov_new [[(sym "root", str (bytes "/a"))]]
      = .ok { root := some (bytes "/a"), mode := DD_COV_TARGET_FILES, coverage := rb_hash_new }
    ∧ Cov_new [[(sym "root", str (bytes "/a")), (sym "mode", sym "files")]]
      = .ok { root := some (bytes "/a"), mode := DD_COV_TARGET_FILES, coverage := rb_hash_new }
    ∧ Cov_new [[(sym "root", str (bytes "/a")), (sym "mode", sym "lines")]]
      = .ok { root := some (bytes "/a"), mode := DD_COV_TARGET_LINES, coverage := rb_hash_new }
    ∧ Cov_new [[(sym "root", str (bytes "/a")), (sym "mode", sym "bogus")]]
      = .error (.rb_eArgError "mode is invalid") :=
  ⟨(mode_selection [(sym "root", str (bytes "/a"))] (bytes "/a") rfl (by decide)).1
      (Or.inl (by decide)),
   (mode_selection [(sym "root", str (bytes "/a")), (sym "mode", sym "files")]
      (bytes "/a") rfl (by decide)).1 (Or.inr (Or.inr (Or.inr rfl))),
   (mode_selection [(sym "root", str (bytes "/a")), (sym "mode", sym "lines")]
      (bytes "/a") rfl (by decide)).2.1 rfl,
   (mode_selection [(sym "root", str (bytes "/a")), (sym "mode", sym "bogus")]
      (bytes "/a") rfl (by decide)).2.2 (by decide) (by decide) (by decide) (by decide)⟩

/-- C11, the claim as stated fails: the mode value `false` is present, is neither of the
two symbols, and construction succeeds in Files mode instead of failing. -/
theorem mode_false_selects_files :
    sym "mode" ∈ keys [(sym "root", str (bytes "/a")), (sym "mode", Qfalse)]
    ∧ rb_hash_lookup [(sym "root", str (bytes "/a")), (sym "mode", Qfalse)] (sym "mode")
        = Qfalse
    ∧ Cov_new [[(sym "root", str (bytes "/a")), (sym "mode", Qfalse)]]
        = .ok { root := some (bytes "/a"), mode := DD_COV_TARGET_FILES,
                coverage := rb_hash_new } :=
  ⟨by decide, rfl, rfl⟩

/-! ## The end-to-end scenario and unresolvable files -/

/-- C12.  End-to-end scenario: with root "/proj/src", start, the four events
(/proj/src/a.rb, 1), (/proj/src/a.rb, 1), (/proj/src/a.rb, 2), (/other/b.rb, 5) in that
order, then stop: in Lines mode the snapshot is exactly {"/proj/src/a.rb": [1, 2]}, in
Files mode it is exactly {"/proj/src/a.rb": true}, and "/other/b.rb" is a key of
neither. -/
theorem end_to_end_scenario :
    (∃ data w,
      Cov_new [[(sym "root", str (bytes "/proj/src")), (sym "mode", sym "lines")]] = .ok data
      ∧ run ⟨data, 0⟩
          (session [(some (bytes "/proj/src/a.rb"), 1), (some (bytes "/proj/src/a.rb"), 1),
            (some (bytes "/proj/src/a.rb"), 2), (some (bytes "/other/b.rb"), 5)])
        = some (w, [[(str (bytes "/proj/src/a.rb"), ary [1, 2])]]))
    ∧ (∃ data w,
      Cov_new [[(sym "root", str (bytes "/proj/src")), (sym "mode", sym "files")]] = .ok data
      ∧ run ⟨data, 0⟩
          (session [(some (bytes "/proj/src/a.rb"), 1), (some (bytes "/proj/src/a.rb"), 1),
            (some (bytes "/proj/src/a.rb"), 2), (some (bytes "/other/b.rb"), 5)])
        = some (w, [[(str (bytes "/proj/src/a.rb"), Qtrue)]]))
    ∧ str (bytes "/other/b.rb") ∉ keys [(str (bytes "/proj/src/a.rb"), ary [1, 2])]
    ∧ str (bytes "/other/b.rb") ∉ keys [(str (bytes "/proj/src/a.rb"), Qtrue)] := by
  refine ⟨⟨{ root := some (bytes "/proj/src"), mode := 2, coverage := [] },
      ⟨{ root := some (bytes "/proj/src"), mode := 2, coverage := [] }, 0⟩, rfl, ?_⟩,
    ⟨{ root := some (bytes "/proj/src"), mode := 1, coverage := [] },
      ⟨{ root := some (bytes "/proj/src"), mode := 1, coverage := [] }, 0⟩, rfl, ?_⟩,
    ?_, ?_⟩
  · decide
  · decide
  · decide
  · decide

/-- C13.  An event whose source file cannot be resolved is a no-op: for every collector
state whatsoever, in both modes and for every line number, the hook returns without a
fault and leaves the collector unchanged, and so does a line event with any number of
registered hooks; as this holds even for a collector whose root is NULL, on which the
prefix comparison would fault, the comparison is not evaluated. -/
theorem unresolved_file_is_noop (data : dd_cov_data) (line : Int) (n : Nat) :
    dd_cov_update_line_coverage data none line = some data
    ∧ call_hooks n data none line = some data
    ∧ line_event ⟨data, n⟩ none line = some ⟨data, n⟩
    ∧ dd_cov_update_line_coverage { data with root := none } none line
        = some { data with root := none }
    ∧ dd_cov_update_line_coverage { data with root := none } (some []) line = none := by
  have h1 : dd_cov_update_line_coverage data none line = some data := rfl
  have h2 : call_hooks n data none line = some data := call_hooks_fixed n data none line h1
  refine ⟨h1, h2, ?_, rfl, rfl⟩
  simp [line_event, h2]

/-! ## The empty root -/

theorem Cov_new_succeeds (opt : RbHash) (root : CStr)
    (hroot : rb_hash_lookup opt (sym "root") = str root) (hnul : 0 ∉ root)
    (hmode : sym "mode" ∉ keys opt ∨ rb_hash_lookup opt (sym "mode") = sym "files"
      ∨ rb_hash_lookup opt (sym "mode") = sym "lines") :
    ∃ data, Cov_new [opt] = .ok data ∧ data.root = some root
      ∧ data.coverage = rb_hash_new ∧ DataInv root data.mode data := by
  have ht : RTEST (rb_hash_lookup opt (sym "root")) = true := by rw [hroot]; rfl
  obtain ⟨mode, hinit⟩ := initialize_valid_mode opt dd_cov_allocate ht hmode
  have hnew : Cov_new [opt]
      = .ok { dd_cov_allocate with root := some root, mode := mode } := by
    simp [Cov_new, hinit, hroot, StringValueCStr, hnul]
  obtain ⟨opt1, root1, _, _, hcov, hinv⟩ := Cov_new_ok hnew
  have e : root1 = root := by
    have := hinv.root_eq
    simp only at this
    exact (Option.some.inj this).symm
  subst e
  exact ⟨_, hnew, rfl, hcov, hinv⟩

/-- C14.  Empty root matches everything: constructing a collector with root equal to
the empty string and a valid mode succeeds and stores the empty root; and for that
collector, in every reachable state, the hook records every event with a resolvable
filename (the file becomes a key, mapped to `true` in Files mode and to a list holding
the line in Lines mode), so the snapshot of a session has every resolvable event
filename as a key. -/
theorem empty_root_matches_everything (opt : RbHash)
    (hroot : rb_hash_lookup opt (sym "root") = str [])
    (hmode : sym "mode" ∉ keys opt ∨ rb_hash_lookup opt (sym "mode") = sym "files"
      ∨ rb_hash_lookup opt (sym "mode") = sym "lines") :
    ∃ data, Cov_new [opt] = .ok data ∧ data.root = some []
      ∧ (∀ ops : List Op, ∃ w snaps, run ⟨data, 0⟩ ops = some (w, snaps)
          ∧ ∀ (filename : CStr) (line : Int), ∃ data1,
              dd_cov_update_line_coverage w.data (some filename) line = some data1
              ∧ rb_str_new2 filename ∈ keys data1.coverage
              ∧ (data.mode = DD_COV_TARGET_FILES →
                  rb_hash_aref data1.coverage (rb_str_new2 filename) = Qtrue)
              ∧ (data.mode = DD_COV_TARGET_LINES →
                  line ∈ lines_of data1.coverage (rb_str_new2 filename)))
      ∧ (∀ events : List (Option CStr × Int), ∃ w snap,
          run ⟨data, 0⟩ (session events) = some (w, [snap])
          ∧ ∀ e ∈ events, ∀ f, e.1 = some f → rb_str_new2 f ∈ keys snap) := by
  obtain ⟨data, hnew, hr, _, hinv⟩ := Cov_new_succeeds opt [] hroot (by simp) hmode
  refine ⟨data, hnew, hr, ?_, ?_⟩
  · intro ops
    obtain ⟨w, snaps, hrun, hinvw, _⟩ := run_inv ops ⟨data, 0⟩ hinv
    refine ⟨w, snaps, hrun, ?_⟩
    intro filename line
    have hp : prefix_ [] filename = 0 := rfl
    refine ⟨_, hook_in_scope hinvw filename line hp, ?_, ?_, ?_⟩
    · exact (mem_keys_recorded _ _ _ _ _).2 (Or.inr rfl)
    · intro hm
      simp [recorded, hm, rb_hash_aref_aset_same]
    · intro hm
      rw [hm]
      exact (lines_of_recorded _ _ _ _ _).2 (Or.inr ⟨rfl, rfl⟩)
  · intro events
    obtain ⟨w, snap, hrun, _, _, hk, _⟩ := run_events_stop events data 0 hinv
    refine ⟨w, snap, by rw [session_eq]; exact hrun, ?_⟩
    intro e he f hf
    exact (hk _).2 (Or.inr ⟨e, he, f, hf, rfl, List.nil_prefix⟩)

theorem empty_root_matches_everything_witness :
    rb_hash_lookup [(sym "root", str []), (sym "mode", sym "lines")] (sym "root") = str []
    ∧ ∃ data, Cov_new [[(sym "root", str []), (sym "mode", sym "lines")]] = .ok data
      ∧ data.root = some []
      ∧ (∀ ops : List Op, ∃ w snaps, run ⟨data, 0⟩ ops = some (w, snaps)
          ∧ ∀ (filename : CStr) (line : Int), ∃ data1,
              dd_cov_update_line_coverage w.data (some filename) line = some data1
              ∧ rb_str_new2 filename ∈ keys data1.coverage
              ∧ (data.mode = DD_COV_TARGET_FILES →
                  rb_hash_aref data1.coverage (rb_str_new2 filename) = Qtrue)
              ∧ (data.mode = DD_COV_TARGET_LINES →
                  line ∈ lines_of data1.coverage (rb_str_new2 filename)))
      ∧ (∀ events : List (Option CStr × Int), ∃ w snap,
          run ⟨data, 0⟩ (session events) = some (w, [snap])
          ∧ ∀ e ∈ events, ∀ f, e.1 = some f → rb_str_new2 f ∈ keys snap) :=
  ⟨rfl, empty_root_matches_everything [(sym "root", str []), (sym "mode", sym "lines")]
    rfl (Or.inr (Or.inr rfl))⟩

/-! ## What the operations touch -/

theorem hook_frame (data data1 : dd_cov_data) (sourcefile : Option CStr) (line : Int)
    (h : dd_cov_update_line_coverage data sourcefile line = some data1) :
    data1.root = data.root ∧ data1.mode = data.mode := by
  unfold dd_cov_update_line_coverage at h
  split at h
  · cases h; exact ⟨rfl, rfl⟩
  · split at h
    · cases h
    · split at h
      · cases h; exact ⟨rfl, rfl⟩
      · split at h
        · cases h; exact ⟨rfl, rfl⟩
        · split at h
          · simp only at h
            split at h
            · split at h
              · cases h; exact ⟨rfl, rfl⟩
              · cases h; exact ⟨rfl, rfl⟩
            · cases h
          · cases h; exact ⟨rfl, rfl⟩

theorem call_hooks_frame (n : Nat) (data data1 : dd_cov_data) (sourcefile : Option CStr)
    (line : Int) (h : call_hooks n data sourcefile line = some data1) :
    data1.root = data.root ∧ data1.mode = data.mode := by
  induction n generalizing data with
  | zero => cases h; exact ⟨rfl, rfl⟩
  | succ n ih =>
    simp only [call_hooks] at h
    cases h1 : dd_cov_update_line_coverage data sourcefile line with
    | none => simp [h1] at h
    | some d =>
      simp only [h1] at h
      obtain ⟨r1, m1⟩ := hook_frame data d sourcefile line h1
      obtain ⟨r2, m2⟩ := ih d h
      exact ⟨r2.trans r1, m2.trans m1⟩

/-- C15.  Root and mode are immutable after construction and the operations touch only
what they claim: in every collector state reachable from a successful construction the
root and the mode are the constructed ones; start returns the same collector with root,
mode and store unchanged; the hook, and a line event with all its hook calls, completes
and changes at most the store; stop returns exactly the store held before the call and
changes only the store, which becomes empty.  The frame of the hook holds in any state
whatsoever in which the hook returns. -/
theorem operations_frame (argv : List RbHash) (data : dd_cov_data) (ops : List Op)
    (w : World) (snaps : List RbHash) (sourcefile : Option CStr) (line : Int)
    (hnew : Cov_new argv = .ok data) (hrun : run ⟨data, 0⟩ ops = some (w, snaps)) :
    (w.data.root = data.root ∧ w.data.mode = data.mode)
    ∧ (dd_cov_start w).data = w.data
    ∧ (∃ data1, dd_cov_update_line_coverage w.data sourcefile line = some data1
        ∧ data1.root = w.data.root ∧ data1.mode = w.data.mode)
    ∧ (∃ w1, line_event w sourcefile line = some w1
        ∧ w1.data.root = w.data.root ∧ w1.data.mode = w.data.mode ∧ w1.hooks = w.hooks)
    ∧ (dd_cov_stop w).1 = w.data.coverage
    ∧ (dd_cov_stop w).2.data = { w.data with coverage := rb_hash_new }
    ∧ (∀ d d1 : dd_cov_data, dd_cov_update_line_coverage d sourcefile line = some d1 →
        d1.root = d.root ∧ d1.mode = d.mode) := by
  obtain ⟨root, _, _, hinv0, hinv, _⟩ := reachable_inv hnew hrun
  refine ⟨⟨?_, hinv.mode_eq⟩, rfl, ?_, ?_, rfl, rfl, ?_⟩
  · rw [hinv.root_eq, hinv0.root_eq]
  · obtain ⟨data1, h1, _⟩ := hook_inv hinv sourcefile line
    exact ⟨data1, h1, hook_frame _ _ _ _ h1⟩
  · obtain ⟨data1, h1, _⟩ := call_hooks_inv hinv w.hooks sourcefile line
    obtain ⟨hr, hm⟩ := call_hooks_frame _ _ _ _ _ h1
    exact ⟨{ w with data := data1 }, by simp [line_event, h1], hr, hm, rfl⟩
  · intro d d1 h
    exact hook_frame d d1 sourcefile line h

theorem operations_frame_witness :
    Cov_new [[(sym "root", str (bytes "/a")), (sym "mode", sym "lines")]]
      = .ok { root := some (bytes "/a"), mode := 2, coverage := [] }
    ∧ run ⟨dd_cov_data.mk (some (bytes "/a")) 2 [], 0⟩
        [Op.start, Op.line (some (bytes "/a/x")) 3]
      = some (⟨dd_cov_data.mk (some (bytes "/a")) 2 [(str (bytes "/a/x"), ary [3])], 1⟩, [])
    ∧ (dd_cov_stop
        ⟨dd_cov_data.mk (some (bytes "/a")) 2 [(str (bytes "/a/x"), ary [3])], 1⟩).1
      = [(str (bytes "/a/x"), ary [3])]
    ∧ ∃ data1, dd_cov_update_line_coverage
          (dd_cov_data.mk (some (bytes "/a")) 2 [(str (bytes "/a/x"), ary [3])])
          (some (bytes "/a/y")) 4 = some data1
        ∧ data1.root = some (bytes "/a") ∧ data1.mode = 2 :=
  ⟨rfl, by decide,
   (operations_frame [[(sym "root", str (bytes "/a")), (sym "mode", sym "lines")]]
    (dd_cov_data.mk (some (bytes "/a")) 2 [])
    [Op.start, Op.line (some (bytes "/a/x")) 3]
    ⟨dd_cov_data.mk (some (bytes "/a")) 2 [(str (bytes "/a/x"), ary [3])], 1⟩ []
    (some (bytes "/a/y")) 4 rfl (by decide)).2.2.2.2.1,
   (operations_frame [[(sym "root", str (bytes "/a")), (sym "mode", sym "lines")]]
    (dd_cov_data.mk (some (bytes "/a")) 2 [])
    [Op.start, Op.line (some (bytes "/a/x")) 3]
    ⟨dd_cov_data.mk (some (bytes "/a")) 2 [(str (bytes "/a/x"), ary [3])], 1⟩ []
    (some (bytes "/a/y")) 4 rfl (by decide)).2.2.1⟩

/-! ## The stored line numbers -/

theorem lines_of_all {P : Int → Prop} {cov : RbHash} (hall : LinesAll P cov) (key : VALUE) :
    ∀ l ∈ lines_of cov key, P l := by
  intro l hl
  by_cases hk : key ∈ keys cov
  · have hm := rb_hash_aref_mem cov key hk
    cases hv : rb_hash_aref cov key with
    | ary ls =>
      rw [hv] at hm
      have : lines_of cov key = ls := by simp [lines_of, hv]
      rw [this] at hl
      exact hall _ hm ls rfl l hl
    | _ => simp [lines_of, hv] at hl
  · simp [lines_of, rb_hash_aref_not_mem cov key hk] at hl

theorem recorded_lines_all {P : Int → Prop} {cov : RbHash} (mode : Int) (key : VALUE)
    (line : Int) (hall : LinesAll P cov) (hline : P line) :
    LinesAll P (recorded mode cov key line) := by
  intro kv hkv ls hls l hl
  unfold recorded at hkv
  by_cases hm : mode = DD_COV_TARGET_FILES
  · simp only [hm, if_true] at hkv
    rcases mem_rb_hash_aset hkv with h | h
    · exact hall kv h ls hls l hl
    · rw [h] at hls
      cases hls
  · simp only [hm, if_false] at hkv
    rcases mem_rb_hash_aset hkv with h | h
    · exact hall kv h ls hls l hl
    · rw [h] at hls
      have e : insert_line (lines_of cov key) line = ls := by
        simpa using hls
      rw [← e] at hl
      rcases (insert_line_mem _ _ _).1 hl with h1 | h1
      · exact lines_of_all hall key l h1
      · exact h1 ▸ hline

theorem hook_lines_all {P : Int → Prop} {root : CStr} {mode : Int} {data data1 : dd_cov_data}
    (hinv : DataInv root mode data) (sourcefile : Option CStr) (line : Int)
    (hall : LinesAll P data.coverage) (hline : P line)
    (h : dd_cov_update_line_coverage data sourcefile line = some data1) :
    LinesAll P data1.coverage := by
  cases sourcefile with
  | none =>
    have e : data = data1 := Option.some.inj h
    exact e ▸ hall
  | some filename =>
    by_cases hp : prefix_ root filename = 0
    · rw [hook_in_scope hinv filename line hp] at h
      have e := Option.some.inj h
      rw [← e]
      exact recorded_lines_all mode _ line hall hline
    · rw [hook_out_of_scope data root filename line hinv.root_eq hp] at h
      have e : data = data1 := Option.some.inj h
      exact e ▸ hall

theorem run_lines_all {P : Int → Prop} {root : CStr} {mode : Int} (ops : List Op) (w : World)
    (hinv : DataInv root mode w.data) (hall : LinesAll P w.data.coverage)
    (hops : ∀ sf l, Op.line sf l ∈ ops → P l) :
    ∃ w1 snaps, run w ops = some (w1, snaps) ∧ ∀ snap ∈ snaps, LinesAll P snap := by
  induction ops generalizing w with
  | nil => exact ⟨w, [], rfl, by simp⟩
  | cons op ops ih =>
    have hops1 : ∀ sf l, Op.line sf l ∈ ops → P l :=
      fun sf l h => hops sf l (List.mem_cons_of_mem _ h)
    cases op with
    | start =>
      obtain ⟨w2, outs, h2, houts⟩ := ih (dd_cov_start w) hinv hall hops1
      exact ⟨w2, [] ++ outs, run_cons_eq rfl h2, by simpa using houts⟩
    | line sf l =>
      have hl : P l := hops sf l (List.mem_cons_self _ _)
      obtain ⟨data1, h1, hinv1⟩ := call_hooks_inv hinv w.hooks sf l
      have hall1 : LinesAll P data1.coverage := by
        cases hn : w.hooks with
        | zero =>
          rw [hn] at h1
          have e : w.data = data1 := Option.some.inj h1
          exact e ▸ hall
        | succ n =>
          rw [hn, call_hooks_succ hinv] at h1
          exact hook_lines_all hinv sf l hall hl h1
      have hstep : step w (Op.line sf l) = some ({ w with data := data1 }, []) := by
        simp [step, line_event, h1]
      obtain ⟨w2, outs, h2, houts⟩ := ih { w with data := data1 } hinv1 hall1 hops1
      exact ⟨w2, [] ++ outs, run_cons_eq hstep h2, by simpa using houts⟩
    | stop =>
      have hinv1 : DataInv root mode (dd_cov_stop w).2.data :=
        ⟨hinv.root_eq, hinv.mode_eq, hinv.nul_free, hinv.mode_ok, storeInv_empty root mode⟩
      have hall1 : LinesAll P (dd_cov_stop w).2.data.coverage := by
        intro kv hkv
        simp [dd_cov_stop, rb_hash_new] at hkv
      obtain ⟨w2, outs, h2, houts⟩ := ih (dd_cov_stop w).2 hinv1 hall1 hops1
      refine ⟨w2, [(dd_cov_stop w).1] ++ outs, run_cons_eq rfl h2, ?_⟩
      intro snap hs
      rcases List.mem_append.1 hs with h | h
      · simp only [List.mem_singleton] at h
        rw [h]
        exact hall
      · exact houts snap h

/-- C16, as amended.  In Lines mode, for every sequence of start, event and stop
operations on a constructed collector, the run completes and every line number stored in
any snapshot is the line number of a line event of the sequence; so each element of each
line list is greater than zero whenever every line event of the sequence carries a
line number greater than zero. -/
theorem stored_lines_come_from_events (argv : List RbHash) (data : dd_cov_data)
    (ops : List Op) (hnew : Cov_new argv = .ok data)
    (hmode : data.mode = DD_COV_TARGET_LINES) :
    ∃ w snaps, run ⟨data, 0⟩ ops = some (w, snaps)
      ∧ (∀ snap ∈ snaps, ∀ kv ∈ snap, ∃ ls, kv.2 = ary ls
          ∧ ∀ l ∈ ls, ∃ sf, Op.line sf l ∈ ops)
      ∧ ((∀ sf l, Op.line sf l ∈ ops → 0 < l) →
          ∀ snap ∈ snaps, ∀ kv ∈ snap, ∃ ls, kv.2 = ary ls ∧ ∀ l ∈ ls, 0 < l) := by
  obtain ⟨opt, root, _, _, hcov, hinv⟩ := Cov_new_ok hnew
  have hempty : ∀ P : Int → Prop, LinesAll P data.coverage := by
    intro P kv hkv
    simp [hcov, rb_hash_new] at hkv
  obtain ⟨w, snaps, hrun, _, hsn⟩ := run_inv ops ⟨data, 0⟩ hinv
  obtain ⟨w1, snaps1, hrun1, hall1⟩ :=
    run_lines_all (P := fun l => ∃ sf, Op.line sf l ∈ ops) ops ⟨data, 0⟩ hinv
      (hempty _) (fun sf l h => ⟨sf, h⟩)
  have e1 : snaps1 = snaps := by
    rw [hrun] at hrun1
    exact (Prod.mk.inj (Option.some.inj hrun1)).2.symm
  subst e1
  refine ⟨w, snaps1, hrun, ?_, ?_⟩
  · intro snap hs kv hkv
    obtain ⟨ls, hls, _, _⟩ := (hsn snap hs).lines hmode kv hkv
    exact ⟨ls, hls, hall1 snap hs kv hkv ls hls⟩
  · intro hpos snap hs kv hkv
    obtain ⟨ls, hls, _, _⟩ := (hsn snap hs).lines hmode kv hkv
    refine ⟨ls, hls, ?_⟩
    intro l hl
    obtain ⟨sf, hsf⟩ := hall1 snap hs kv hkv ls hls l hl
    exact hpos sf l hsf

theorem stored_lines_come_from_events_witness :
    Cov_new [[(sym "root", str (bytes "/a")), (sym "mode", sym "lines")]]
      = .ok { root := some (bytes "/a"), mode := 2, coverage := [] }
    ∧ ∃ w snaps,
      run ⟨dd_cov_data.mk (some (bytes "/a")) 2 [], 0⟩
          [Op.start, Op.line (some (bytes "/a/x")) 3, Op.stop] = some (w, snaps)
      ∧ (∀ snap ∈ snaps, ∀ kv ∈ snap, ∃ ls, kv.2 = ary ls
          ∧ ∀ l ∈ ls, ∃ sf,
              Op.line sf l ∈ [Op.start, Op.line (some (bytes "/a/x")) 3, Op.stop])
      ∧ ((∀ sf l, Op.line sf l ∈ [Op.start, Op.line (some (bytes "/a/x")) 3, Op.stop] →
            0 < l) →
          ∀ snap ∈ snaps, ∀ kv ∈ snap, ∃ ls, kv.2 = ary ls ∧ ∀ l ∈ ls, 0 < l) :=
  ⟨rfl, stored_lines_come_from_events
    [[(sym "root", str (bytes "/a")), (sym "mode", sym "lines")]]
    (dd_cov_data.mk (some (bytes "/a")) 2 [])
    [Op.start, Op.line (some (bytes "/a/x")) 3, Op.stop] rfl rfl⟩

/-- C16, the claim as stated fails: a line event that carries the line number 0 for an
in-scope file puts 0 into the line list of the snapshot. -/
theorem line_zero_is_stored :
    Cov_new [[(sym "root", str (bytes "/a")), (sym "mode", sym "lines")]]
      = .ok { root := some (bytes "/a"), mode := 2, coverage := [] }
    ∧ run ⟨dd_cov_data.mk (some (bytes "/a")) 2 [], 0⟩
        [Op.start, Op.line (some (bytes "/a/x")) 0, Op.stop]
      = some (⟨dd_cov_data.mk (some (bytes "/a")) 2 [], 0⟩, [[(str (bytes "/a/x"), ary [0])]])
    ∧ ¬ (∀ snap ∈ [[(str (bytes "/a/x"), ary [0])]], ∀ kv ∈ snap, ∀ ls,
          kv.2 = ary ls → ∀ l ∈ ls, (0 : Int) < l) := by
  refine ⟨rfl, by decide, ?_⟩
  intro h
  have := h [(str (bytes "/a/x"), ary [0])] (by simp) (str (bytes "/a/x"), ary [0])
    (by simp) [0] rfl 0 (by simp)
  omega

/-! ## Failure of construction -/

theorem initialize_result (argv : List RbHash) (self : dd_cov_data) :
    (∃ v, ( dd_cov_initialize argv self).1 = .ok v)
      ∨ ( dd_cov_initialize argv self).2 = self := by
  generalize h : dd_cov_initialize argv self = r
  unfold dd_cov_initialize at h
  split at h
  · right; rw [← h]
  · simp only at h
    split at h
    · right; rw [← h]
    · split at h
      · right; rw [← h]
      · split at h
        · right; rw [← h]
        · left; rw [← h]; exact ⟨_, rfl⟩

/-- C17.  Construction is atomic on failure: whenever `initialize` raises, whatever the
arguments and whatever the struct held before, the struct is left exactly as it was, so
none of the fields root, mode and coverage has been assigned; this covers the missing
root and the invalid mode, both of which are detected before the first field write. -/
theorem construction_atomic_on_failure (argv : List RbHash) (self : dd_cov_data)
    (e : RbException) (hraise : ( dd_cov_initialize argv self).1 = .error e) :
    ( dd_cov_initialize argv self).2 = self
    ∧ ( dd_cov_initialize argv self).2.root = self.root
    ∧ ( dd_cov_initialize argv self).2.mode = self.mode
    ∧ ( dd_cov_initialize argv self).2.coverage = self.coverage := by
  have h : ( dd_cov_initialize argv self).2 = self := by
    rcases initialize_result argv self with ⟨v, hv⟩ | h
    · rw [hv] at hraise
      cases hraise
    · exact h
  rw [h]
  exact ⟨rfl, rfl, rfl, rfl⟩

theorem construction_atomic_on_failure_witness :
    ( dd_cov_initialize [[(sym "root", str (bytes "/a")), (sym "mode", sym "bogus")]]
        dd_cov_allocate).1 = .error (.rb_eArgError "mode is invalid")
    ∧ ( dd_cov_initialize [[(sym "mode", sym "lines")]] dd_cov_allocate).1
        = .error (.rb_eArgError "root is required")
    ∧ ( dd_cov_initialize [[(sym "root", str (bytes "/a")), (sym "mode", sym "bogus")]]
        dd_cov_allocate).2 = dd_cov_allocate
    ∧ ( dd_cov_initialize [[(sym "mode", sym "lines")]] dd_cov_allocate).2 = dd_cov_allocate :=
  ⟨rfl, rfl,
   (construction_atomic_on_failure
      [[(sym "root", str (bytes "/a")), (sym "mode", sym "bogus")]] dd_cov_allocate
      (.rb_eArgError "mode is invalid") rfl).1,
   (construction_atomic_on_failure [[(sym "mode", sym "lines")]] dd_cov_allocate
      (.rb_eArgError "root is required") rfl).1⟩

/-! ## First-seen order -/

theorem foldl_insert_line (xs acc : List Int) :
    xs.foldl insert_line acc = acc ++ (first_seen xs).filter (fun y => decide (y ∉ acc)) := by
  induction xs generalizing acc with
  | nil => simp [first_seen]
  | cons x xs ih =>
    rw [List.foldl_cons, ih]
    by_cases hx : x ∈ acc
    · have hi : insert_line acc x = acc := by simp [insert_line, hx]
      rw [hi]
      simp only [first_seen, List.filter_cons, hx, not_true_eq_false, decide_False,
        Bool.false_eq_true, if_false, List.filter_filter]
      congr 1
      apply List.filter_congr
      intro y _
      by_cases hy : y ∈ acc
      · simp [hy]
      · have : y ≠ x := fun e => hy (e ▸ hx)
        simp [hy, this]
    · have hi : insert_line acc x = acc ++ [x] := by simp [insert_line, hx]
      rw [hi]
      simp only [first_seen, List.filter_cons, hx, not_false_eq_true, decide_True, if_true,
        List.filter_filter, List.append_assoc, List.singleton_append]
      congr 2
      apply List.filter_congr
      intro y _
      by_cases hy : y ∈ acc
      · simp [hy]
      · by_cases hyx : y = x
        · simp [hyx]
        · simp [hy, hyx]

theorem foldl_insert_line_nil (xs : List Int) : xs.foldl insert_line [] = first_seen xs := by
  rw [foldl_insert_line]
  simp

theorem hook_lines_of {root : CStr} {data : dd_cov_data}
    (hinv : DataInv root DD_COV_TARGET_LINES data) (sourcefile : Option CStr) (line : Int) :
    ∃ data1, dd_cov_update_line_coverage data sourcefile line = some data1
      ∧ DataInv root DD_COV_TARGET_LINES data1
      ∧ ∀ key, lines_of data1.coverage key
          = (event_lines root key [(sourcefile, line)]).foldl insert_line
              (lines_of data.coverage key) := by
  obtain ⟨data1, h1, hinv1⟩ := hook_inv hinv sourcefile line
  refine ⟨data1, h1, hinv1, ?_⟩
  intro key
  cases sourcefile with
  | none =>
    have e : data = data1 := Option.some.inj h1
    subst e
    simp [event_lines]
  | some filename =>
    by_cases hp : prefix_ root filename = 0
    · have hpre := (prefix_eq_zero_iff root hinv.nul_free filename).1 hp
      rw [hook_in_scope hinv filename line hp] at h1
      have e := Option.some.inj h1
      rw [← e]
      have hrec : recorded DD_COV_TARGET_LINES data.coverage (rb_str_new2 filename) line
          = rb_hash_aset data.coverage (rb_str_new2 filename)
              (ary (insert_line (lines_of data.coverage (rb_str_new2 filename)) line)) := by
        simp [recorded, DD_COV_TARGET_LINES, DD_COV_TARGET_FILES]
      simp only [hrec]
      by_cases hk : rb_str_new2 filename = key
      · subst hk
        simp [event_lines, hpre, lines_of_aset_same]
      · have hk2 : key ≠ rb_str_new2 filename := fun e => hk e.symm
        rw [lines_of_aset_other _ _ _ _ hk2]
        simp [event_lines, hk]
    · have hpre : ¬ root <+: filename := fun h =>
        hp ((prefix_eq_zero_iff root hinv.nul_free filename).2 h)
      rw [hook_out_of_scope data root filename line hinv.root_eq hp] at h1
      have e : data = data1 := Option.some.inj h1
      subst e
      simp [event_lines, hpre]

theorem event_lines_cons (root : CStr) (key : VALUE) (e : Option CStr × Int)
    (es : List (Option CStr × Int)) :
    event_lines root key (e :: es) = event_lines root key [e] ++ event_lines root key es := by
  unfold event_lines
  rw [← List.filterMap_append]
  rfl

theorem run_events_stop_lines {root : CStr} (events : List (Option CStr × Int))
    (data : dd_cov_data) (n : Nat) (hinv : DataInv root DD_COV_TARGET_LINES data) :
    ∃ w snap, run ⟨data, n + 1⟩ (events.map (fun e => Op.line e.1 e.2) ++ [Op.stop])
        = some (w, [snap])
      ∧ ∀ key, lines_of snap key
          = (event_lines root key events).foldl insert_line (lines_of data.coverage key) := by
  induction events generalizing data with
  | nil => exact ⟨_, data.coverage, rfl, fun key => by simp [event_lines]⟩
  | cons e es ih =>
    obtain ⟨sf, l⟩ := e
    obtain ⟨data1, h1, hinv1, hl1⟩ := hook_lines_of hinv sf l
    obtain ⟨w, snap, hrun, hl⟩ := ih data1 hinv1
    have hstep : step ⟨data, n + 1⟩ (Op.line sf l) = some (⟨data1, n + 1⟩, []) := by
      simp [step, line_event, call_hooks_succ hinv, h1]
    refine ⟨w, snap, ?_, ?_⟩
    · rw [List.map_cons, List.cons_append]
      exact run_cons_eq hstep hrun
    · intro key
      rw [hl key, hl1 key]
      conv_rhs => rw [event_lines_cons, List.foldl_append]

/-- C18.  First-seen order: in Lines mode, for a fresh collector and any event sequence
between start and stop, the run completes with one snapshot, and the line list stored
under each file equals the sequence of the lines of the in-scope events for that file
with every repeated occurrence after the first removed. -/
theorem lines_in_first_seen_order (argv : List RbHash) (data : dd_cov_data)
    (events : List (Option CStr × Int)) (hnew : Cov_new argv = .ok data)
    (hmode : data.mode = DD_COV_TARGET_LINES) :
    ∃ root w snap, data.root = some root
      ∧ run ⟨data, 0⟩ (session events) = some (w, [snap])
      ∧ (∀ key ∈ keys snap,
          rb_hash_aref snap key = ary (first_seen (event_lines root key events)))
      ∧ (∀ key, key ∉ keys snap → event_lines root key events = []) := by
  obtain ⟨opt, root, _, _, hcov, hinv⟩ := Cov_new_ok hnew
  rw [hmode] at hinv
  obtain ⟨w, snap, hrun, hl⟩ := run_events_stop_lines events data 0 hinv
  obtain ⟨w1, snap1, hrun1, _, hs, hk, _⟩ := run_events_stop events data 0 hinv
  have e1 : snap1 = snap := by
    rw [hrun] at hrun1
    have := (Prod.mk.inj (Option.some.inj hrun1)).2
    simpa using this.symm
  subst e1
  have hlines : ∀ key, lines_of snap1 key = first_seen (event_lines root key events) := by
    intro key
    rw [hl key, hcov]
    exact foldl_insert_line_nil _
  refine ⟨root, w, snap1, hinv.root_eq, by rw [session_eq]; exact hrun, ?_, ?_⟩
  · intro key hkey
    obtain ⟨ls, hls, _, _⟩ := hs.lines rfl _ (rb_hash_aref_mem snap1 key hkey)
    simp only at hls
    have : lines_of snap1 key = ls := by simp [lines_of, hls]
    rw [hls, ← this, hlines key]
  · intro key hkey
    have hnot := (not_congr (hk key)).1 hkey
    simp only [not_or, not_exists, not_and] at hnot
    unfold event_lines
    rw [List.filterMap_eq_nil_iff]
    intro e he
    cases hf : e.1 with
    | none => rfl
    | some f =>
      simp only
      have := hnot.2 e he f hf
      by_cases hp : root <+: f
      · have hne : ¬ rb_str_new2 f = key := fun h => this h.symm hp
        simp [hne]
      · simp [hp]

theorem lines_in_first_seen_order_witness :
    Cov_new [[(sym "root", str (bytes "/a")), (sym "mode", sym "lines")]]
      = .ok { root := some (bytes "/a"), mode := 2, coverage := [] }
    ∧ ∃ root w snap,
      (dd_cov_data.mk (some (bytes "/a")) 2 []).root = some root
      ∧ run ⟨dd_cov_data.mk (some (bytes "/a")) 2 [], 0⟩
          (session [(some (bytes "/a/x"), 7), (some (bytes "/a/x"), 2),
            (some (bytes "/a/x"), 7)]) = some (w, [snap])
      ∧ (∀ key ∈ keys snap,
          rb_hash_aref snap key = ary (first_seen (event_lines root key
            [(some (bytes "/a/x"), 7), (some (bytes "/a/x"), 2), (some (bytes "/a/x"), 7)])))
      ∧ (∀ key, key ∉ keys snap → event_lines root key
            [(some (bytes "/a/x"), 7), (some (bytes "/a/x"), 2), (some (bytes "/a/x"), 7)]
          = []) :=
  ⟨rfl, lines_in_first_seen_order
    [[(sym "root", str (bytes "/a")), (sym "mode", sym "lines")]]
    (dd_cov_data.mk (some (bytes "/a")) 2 [])
    [(some (bytes "/a/x"), 7), (some (bytes "/a/x"), 2), (some (bytes "/a/x"), 7)] rfl rfl⟩

/-! ## The hook is well-typed -/

/-- C19.  The hook's list operations are always well-typed: for a collector constructed
once in Lines mode, in every state reachable by start, event and stop operations, the
value the hook finds under a file is either absent or a line list, never the Files-mode
`true` marker, so the hook never takes the faulting branch and always returns; that
branch is real, as the hook faults on a Lines-mode struct whose store maps the file to
`true`. -/
theorem hook_lists_well_typed (argv : List RbHash) (data : dd_cov_data) (ops : List Op)
    (w : World) (snaps : List RbHash) (filename : CStr) (line : Int)
    (hnew : Cov_new argv = .ok data) (hrun : run ⟨data, 0⟩ ops = some (w, snaps))
    (hmode : data.mode = DD_COV_TARGET_LINES) :
    (rb_hash_aref w.data.coverage (rb_str_new2 filename) = Qnil
      ∨ ∃ ls, rb_hash_aref w.data.coverage (rb_str_new2 filename) = ary ls)
    ∧ rb_hash_aref w.data.coverage (rb_str_new2 filename) ≠ Qtrue
    ∧ (∀ sourcefile, ∃ data1,
        dd_cov_update_line_coverage w.data sourcefile line = some data1)
    ∧ (∃ w1, line_event w (some filename) line = some w1)
    ∧ dd_cov_update_line_coverage
        { root := some (bytes "/a"), mode := DD_COV_TARGET_LINES,
          coverage := [(str (bytes "/a/x"), Qtrue)] } (some (bytes "/a/x")) line = none := by
  obtain ⟨root, _, _, _, hinv, _⟩ := reachable_inv hnew hrun
  have htyped : rb_hash_aref w.data.coverage (rb_str_new2 filename) = Qnil
      ∨ ∃ ls, rb_hash_aref w.data.coverage (rb_str_new2 filename) = ary ls := by
    by_cases hk : rb_str_new2 filename ∈ keys w.data.coverage
    · obtain ⟨ls, hls, _, _⟩ := hinv.store.lines hmode _ (rb_hash_aref_mem _ _ hk)
      exact Or.inr ⟨ls, hls⟩
    · exact Or.inl (rb_hash_aref_not_mem _ _ hk)
  refine ⟨htyped, ?_, ?_, ?_, ?_⟩
  · rcases htyped with h | ⟨ls, h⟩
    · rw [h]; exact fun e => by cases e
    · rw [h]; exact fun e => by cases e
  · intro sourcefile
    obtain ⟨data1, h1, _⟩ := hook_inv hinv sourcefile line
    exact ⟨data1, h1⟩
  · obtain ⟨data1, h1, _⟩ := call_hooks_inv hinv w.hooks (some filename) line
    exact ⟨{ w with data := data1 }, by simp [line_event, h1]⟩
  · have hp : prefix_ (bytes "/a") (bytes "/a/x") = 0 := by decide
    have hk : rb_hash_aref [(str (bytes "/a/x"), Qtrue)] (rb_str_new2 (bytes "/a/x"))
        = Qtrue := by decide
    simp [dd_cov_update_line_coverage, hp, hk, DD_COV_TARGET_LINES, DD_COV_TARGET_FILES]

theorem hook_lists_well_typed_witness :
    Cov_new [[(sym "root", str (bytes "/a")), (sym "mode", sym "lines")]]
      = .ok { root := some (bytes "/a"), mode := 2, coverage := [] }
    ∧ run ⟨dd_cov_data.mk (some (bytes "/a")) 2 [], 0⟩
        [Op.start, Op.line (some (bytes "/a/x")) 3]
      = some (⟨dd_cov_data.mk (some (bytes "/a")) 2 [(str (bytes "/a/x"), ary [3])], 1⟩, [])
    ∧ rb_hash_aref (dd_cov_data.mk (some (bytes "/a")) 2
          [(str (bytes "/a/x"), ary [3])]).coverage (rb_str_new2 (bytes "/a/x")) ≠ Qtrue
    ∧ ∀ sourcefile, ∃ data1,
        dd_cov_update_line_coverage
          (dd_cov_data.mk (some (bytes "/a")) 2 [(str (bytes "/a/x"), ary [3])])
          sourcefile 5 = some data1 :=
  ⟨rfl, by decide,
   (hook_lists_well_typed [[(sym "root", str (bytes "/a")), (sym "mode", sym "lines")]]
    (dd_cov_data.mk (some (bytes "/a")) 2 [])
    [Op.start, Op.line (some (bytes "/a/x")) 3]
    ⟨dd_cov_data.mk (some (bytes "/a")) 2 [(str (bytes "/a/x"), ary [3])], 1⟩ []
    (bytes "/a/x") 5 rfl (by decide) rfl).2.1,
   (hook_lists_well_typed [[(sym "root", str (bytes "/a")), (sym "mode", sym "lines")]]
    (dd_cov_data.mk (some (bytes "/a")) 2 [])
    [Op.start, Op.line (some (bytes "/a/x")) 3]
    ⟨dd_cov_data.mk (some (bytes "/a")) 2 [(str (bytes "/a/x"), ary [3])], 1⟩ []
    (bytes "/a/x") 5 rfl (by decide) rfl).2.2.1⟩

end DatadogCov
